import Mathlib

/-
Verification of the planning-board placement engine, grid rebase engine and
entity derived-value computations.

The definitions below are a shallow embedding of the Python source:
 - `CellModel`, `TicketModel`, `ProjectModel`, `Status`, `Member` embed the
   peewee models of `planning/models.py` (fields not used by any verified
   property, such as free-text attributes and the border flags, are omitted).
 - `TicketMover` (`planning/model_drawer.py`) is embedded by `moverLoop` /
   `moveTo`: the database state of one grid is a `List CellModel`, the
   `while` loop of `TicketMover.move_to` becomes a well-founded recursion,
   and the in-place updates / bulk inserts become the returned update and
   creation lists.
 - `GridInit` embeds `GridInitializer` of `planning/widgets/planning_grid.py`;
   dates are embedded as integers counting days from a Monday epoch, so that
   `weekday d = d % 7` matches Python's `date.weekday()` (Monday = 0).
 - Fallible operations (peewee `.get()` raising `DoesNotExist`, Python
   `int(...)` raising `ValueError`, primary-key violations on insert) are
   embedded with `Option` / `Except`.
-/

/- ===================== generic list helpers ===================== -/

/-- Association lookup on `(row, ticket)` pairs; embeds the Python dict
`_rows_taken` (and `CellModel.get(row=..., column=...)` restricted to one
column). Returns the first entry with the given key. -/
def lookupRow : List (Int × Nat) → Int → Option Nat
  | [], _ => none
  | (a, b) :: l, r => if a = r then some b else lookupRow l r

theorem lookupRow_mem {l : List (Int × Nat)} {r : Int} {b : Nat}
    (h : lookupRow l r = some b) : (r, b) ∈ l := by
  induction l with
  | nil => simp [lookupRow] at h
  | cons p l ih =>
    obtain ⟨a, b'⟩ := p
    by_cases ha : a = r
    · subst ha
      simp [lookupRow] at h
      subst h
      exact List.mem_cons_self _ _
    · simp [lookupRow, ha] at h
      exact List.mem_cons_of_mem _ (ih h)

theorem lookupRow_isSome_of_mem {l : List (Int × Nat)} {r : Int} {b : Nat}
    (h : (r, b) ∈ l) : (lookupRow l r).isSome := by
  induction l with
  | nil => simp at h
  | cons p l ih =>
    obtain ⟨a, b'⟩ := p
    rcases List.mem_cons.mp h with h | h
    · cases h
      simp [lookupRow]
    · by_cases ha : a = r <;> simp [lookupRow, ha, ih h]

theorem lookupRow_eq_some_of_mem_nodup {l : List (Int × Nat)} {r : Int} {b : Nat}
    (hnd : (l.map Prod.fst).Nodup) (h : (r, b) ∈ l) : lookupRow l r = some b := by
  induction l with
  | nil => simp at h
  | cons p l ih =>
    obtain ⟨a, b'⟩ := p
    simp only [List.map_cons, List.nodup_cons] at hnd
    rcases List.mem_cons.mp h with h | h
    · cases h
      simp [lookupRow]
    · have ha : a ≠ r := by
        intro har
        subst har
        exact hnd.1 (List.mem_map.mpr ⟨(a, b), h, rfl⟩)
      simp [lookupRow, ha, ih hnd.2 h]

theorem lookupRow_none_of_not_mem_keys {l : List (Int × Nat)} {r : Int}
    (h : r ∉ l.map Prod.fst) : lookupRow l r = none := by
  induction l with
  | nil => rfl
  | cons p l ih =>
    obtain ⟨a, b'⟩ := p
    simp only [List.map_cons, List.mem_cons] at h
    push_neg at h
    have har : ¬ a = r := fun hh => h.1 hh.symm
    simp [lookupRow, har, ih h.2]

theorem mem_keys_of_lookupRow_some {l : List (Int × Nat)} {r : Int} {b : Nat}
    (h : lookupRow l r = some b) : r ∈ l.map Prod.fst :=
  List.mem_map.mpr ⟨(r, b), lookupRow_mem h, rfl⟩

/-- Monotonicity of `filter` length under pointwise implication of the
predicates. -/
theorem length_filter_le_mono {α : Type} (l : List α) (p q : α → Bool)
    (h : ∀ x, p x = true → q x = true) :
    (l.filter p).length ≤ (l.filter q).length := by
  induction l with
  | nil => simp
  | cons a l ih =>
    by_cases hp : p a = true
    · simp [List.filter_cons, hp, h a hp]
      omega
    · simp only [List.filter_cons]
      rw [Bool.not_eq_true] at hp
      rw [hp]
      by_cases hq : q a = true
      · simp [hq]
        omega
      · rw [Bool.not_eq_true] at hq
        rw [hq]
        exact ih

/-- The number of elements whose key is `≥ key x + 1` is strictly smaller
than the number of elements whose key is `≥ r`, when `x` is an element with
`r ≤ key x`.  This is the termination measure argument for the displacement
walk: each displacement consumes one occupied row at or below the cursor. -/
theorem length_filter_key_lt {α : Type} (key : α → Int) {l : List α} {x : α} {r : Int}
    (hx : x ∈ l) (hr : r ≤ key x) :
    (l.filter (fun y => decide (key x + 1 ≤ key y))).length <
      (l.filter (fun y => decide (r ≤ key y))).length := by
  induction l with
  | nil => cases hx
  | cons a l ih =>
    have hmono := length_filter_le_mono l
      (fun y => decide (key x + 1 ≤ key y)) (fun y => decide (r ≤ key y))
      (by intro y hy; simp at hy ⊢; omega)
    rcases List.mem_cons.mp hx with h | h
    · subst h
      have h1 : decide (key x + 1 ≤ key x) = false := by simp
      have h2 : decide (r ≤ key x) = true := by simpa using hr
      simp only [List.filter_cons, h1, h2]
      simp only [Bool.false_eq_true, if_false, if_true, List.length_cons]
      omega
    · have hlt := ih h
      by_cases h1 : decide (key x + 1 ≤ key a) = true
      · have h2 : decide (r ≤ key a) = true := by simp at h1 ⊢; omega
        simp only [List.filter_cons, h1, h2, if_true, List.length_cons]
        omega
      · rw [Bool.not_eq_true] at h1
        simp only [List.filter_cons, h1]
        by_cases h2 : decide (r ≤ key a) = true
        · simp only [h2, if_true, Bool.false_eq_true, if_false, List.length_cons]
          omega
        · rw [Bool.not_eq_true] at h2
          simp only [h2, Bool.false_eq_true, if_false]
          omega

/- ===================== the cell model ===================== -/

/-- Embeds `CellModel` of `planning/models.py`: composite primary key
`(row, column)` and a ticket foreign key (the two border-flag booleans,
used only by the drawing layer, are omitted). -/
structure CellModel where
  row : Int
  column : Int
  ticket : Nat
deriving DecidableEq, Repr

/- ===================== the ticket mover ===================== -/

namespace TicketMover

/-- The cells of the destination column at or below the target row; embeds
the query in `TicketMover._init_values`:
`CellModel.select(...).where(CellModel.column == column, CellModel.row >= row)`. -/
def cellsBelow (cells : List CellModel) (column row : Int) : List CellModel :=
  cells.filter (fun c => c.column == column && decide (row ≤ c.row))

/-- Embeds `self._rows_taken`: for every cell below, the map from its row to
the ticket occupying it. -/
def rowsTaken (cells : List CellModel) (column row : Int) : List (Int × Nat) :=
  (cellsBelow cells column row).map (fun c => (c.row, c.ticket))

/-- Embeds `self._rows_fixed`: the rows of the cells below whose ticket has
`is_fixed`, or every taken row when `force_move` is false. -/
def rowsFixed (isFixed : Nat → Bool) (cells : List CellModel) (column row : Int)
    (forceMove : Bool) : List Int :=
  ((cellsBelow cells column row).filter
    (fun c => isFixed c.ticket || !forceMove)).map (fun c => c.row)

/-- Embeds the inner `while current_row in self._rows_fixed: current_row += 1`
of `TicketMover.move_to`: the first row at or after `r` that is not fixed. -/
def nextFreeRow (fixed : List Int) (r : Int) : Int :=
  if h : r ∈ fixed then nextFreeRow fixed (r + 1) else r
termination_by (fixed.filter (fun x => decide (r ≤ x))).length
decreasing_by
  exact length_filter_key_lt id h (le_refl r)

theorem le_nextFreeRow (fixed : List Int) (r : Int) : r ≤ nextFreeRow fixed r := by
  rw [nextFreeRow]
  by_cases h : r ∈ fixed
  · simp only [h, dif_pos]
    have := le_nextFreeRow fixed (r + 1)
    omega
  · simp [h]
termination_by (fixed.filter (fun x => decide (r ≤ x))).length
decreasing_by
  exact length_filter_key_lt id h (le_refl r)

theorem nextFreeRow_not_mem (fixed : List Int) (r : Int) :
    nextFreeRow fixed r ∉ fixed := by
  rw [nextFreeRow]
  by_cases h : r ∈ fixed
  · simp only [h, dif_pos]
    exact nextFreeRow_not_mem fixed (r + 1)
  · rw [dif_neg h]
    exact h
termination_by (fixed.filter (fun x => decide (r ≤ x))).length
decreasing_by
  exact length_filter_key_lt id h (le_refl r)

theorem nextFreeRow_eq_of_not_mem {fixed : List Int} {r : Int} (h : r ∉ fixed) :
    nextFreeRow fixed r = r := by
  rw [nextFreeRow]
  simp [h]

/-- One run of the `while self._ticket_cells_to_insert:` loop of
`TicketMover.move_to`.  The queue holds the ticket ids still needing a slot
(FIFO: `pop(0)` from the front, displaced tickets appended at the back, as in
`TicketMover._insert_ticket_cell`).  Returns the pair
(updates applied to existing cells, cells appended to
`_ticket_cells_to_create`), each as `(row, ticket)` pairs. -/
def moverLoop (fixed : List Int) (taken : List (Int × Nat)) :
    List Nat → Int → List (Int × Nat) × List (Int × Nat)
  | [], _ => ([], [])
  | t :: q, r =>
    match h : lookupRow taken (nextFreeRow fixed r) with
    | some ticketOld =>
      let res := moverLoop fixed taken (q ++ [ticketOld]) (nextFreeRow fixed r + 1)
      ((nextFreeRow fixed r, t) :: res.1, res.2)
    | none =>
      let res := moverLoop fixed taken q (nextFreeRow fixed r + 1)
      (res.1, (nextFreeRow fixed r, t) :: res.2)
termination_by q r => q.length + (taken.filter (fun p => decide (r ≤ p.1))).length
decreasing_by
  · have hmem := lookupRow_mem h
    have hge := le_nextFreeRow fixed r
    have hlt : (taken.filter (fun y => decide (nextFreeRow fixed r + 1 ≤ y.1))).length <
        (taken.filter (fun y => decide (r ≤ y.1))).length :=
      length_filter_key_lt Prod.fst hmem hge
    simp only [List.length_append, List.length_cons, List.length_nil]
    omega
  · have hge := le_nextFreeRow fixed r
    have := length_filter_le_mono taken
      (fun p => decide (nextFreeRow fixed r + 1 ≤ p.1)) (fun p => decide (r ≤ p.1))
      (by intro y hy; simp at hy ⊢; omega)
    simp only [List.length_cons]
    omega

/-- The full assignment trace of the loop: the `(row, ticket)` pairs in
iteration order, regardless of whether the slot was an overwrite of an
existing cell or a new cell.  Same recursion as `moverLoop`. -/
def runAssign (fixed : List Int) (taken : List (Int × Nat)) :
    List Nat → Int → List (Int × Nat)
  | [], _ => []
  | t :: q, r =>
    match h : lookupRow taken (nextFreeRow fixed r) with
    | some ticketOld =>
      (nextFreeRow fixed r, t) ::
        runAssign fixed taken (q ++ [ticketOld]) (nextFreeRow fixed r + 1)
    | none =>
      (nextFreeRow fixed r, t) :: runAssign fixed taken q (nextFreeRow fixed r + 1)
termination_by q r => q.length + (taken.filter (fun p => decide (r ≤ p.1))).length
decreasing_by
  · have hmem := lookupRow_mem h
    have hge := le_nextFreeRow fixed r
    have hlt : (taken.filter (fun y => decide (nextFreeRow fixed r + 1 ≤ y.1))).length <
        (taken.filter (fun y => decide (r ≤ y.1))).length :=
      length_filter_key_lt Prod.fst hmem hge
    simp only [List.length_append, List.length_cons, List.length_nil]
    omega
  · have hge := le_nextFreeRow fixed r
    have := length_filter_le_mono taken
      (fun p => decide (nextFreeRow fixed r + 1 ≤ p.1)) (fun p => decide (r ≤ p.1))
      (by intro y hy; simp at hy ⊢; omega)
    simp only [List.length_cons]
    omega

end TicketMover

namespace TicketMover

/- Equation lemmas for the loop, used both for reasoning and for evaluating
the loop on concrete inputs. -/

theorem nextFreeRow_step {fixed : List Int} {r : Int} (h : r ∈ fixed) :
    nextFreeRow fixed r = nextFreeRow fixed (r + 1) := by
  rw [nextFreeRow]
  simp [h]

theorem moverLoop_nil (fixed : List Int) (taken : List (Int × Nat)) (r : Int) :
    moverLoop fixed taken [] r = ([], []) := by
  rw [moverLoop]

theorem moverLoop_cons_some {fixed : List Int} {taken : List (Int × Nat)}
    {t : Nat} {q : List Nat} {r : Int} {ticketOld : Nat}
    (h : lookupRow taken (nextFreeRow fixed r) = some ticketOld) :
    moverLoop fixed taken (t :: q) r =
      ((nextFreeRow fixed r, t) ::
         (moverLoop fixed taken (q ++ [ticketOld]) (nextFreeRow fixed r + 1)).1,
       (moverLoop fixed taken (q ++ [ticketOld]) (nextFreeRow fixed r + 1)).2) := by
  rw [moverLoop]
  split
  · rename_i told heq
    rw [h] at heq
    injection heq with heq2
    subst heq2
    rfl
  · rename_i heq
    rw [h] at heq
    exact Option.noConfusion heq

theorem moverLoop_cons_none {fixed : List Int} {taken : List (Int × Nat)}
    {t : Nat} {q : List Nat} {r : Int}
    (h : lookupRow taken (nextFreeRow fixed r) = none) :
    moverLoop fixed taken (t :: q) r =
      ((moverLoop fixed taken q (nextFreeRow fixed r + 1)).1,
       (nextFreeRow fixed r, t) ::
         (moverLoop fixed taken q (nextFreeRow fixed r + 1)).2) := by
  rw [moverLoop]
  split
  · rename_i told heq
    rw [h] at heq
    exact Option.noConfusion heq
  · rfl

theorem runAssign_nil (fixed : List Int) (taken : List (Int × Nat)) (r : Int) :
    runAssign fixed taken [] r = [] := by
  rw [runAssign]

theorem runAssign_cons_some {fixed : List Int} {taken : List (Int × Nat)}
    {t : Nat} {q : List Nat} {r : Int} {ticketOld : Nat}
    (h : lookupRow taken (nextFreeRow fixed r) = some ticketOld) :
    runAssign fixed taken (t :: q) r =
      (nextFreeRow fixed r, t) ::
        runAssign fixed taken (q ++ [ticketOld]) (nextFreeRow fixed r + 1) := by
  rw [runAssign]
  split
  · rename_i told heq
    rw [h] at heq
    injection heq with heq2
    subst heq2
    rfl
  · rename_i heq
    rw [h] at heq
    exact Option.noConfusion heq

theorem runAssign_cons_none {fixed : List Int} {taken : List (Int × Nat)}
    {t : Nat} {q : List Nat} {r : Int}
    (h : lookupRow taken (nextFreeRow fixed r) = none) :
    runAssign fixed taken (t :: q) r =
      (nextFreeRow fixed r, t) :: runAssign fixed taken q (nextFreeRow fixed r + 1) := by
  rw [runAssign]
  split
  · rename_i told heq
    rw [h] at heq
    exact Option.noConfusion heq
  · rfl

/-- The update and creation lists of the loop are the two halves of the full
assignment trace, split by whether the assigned row was already occupied. -/
theorem moverLoop_eq_filter_runAssign (fixed : List Int) (taken : List (Int × Nat)) :
    ∀ (q : List Nat) (r : Int),
      moverLoop fixed taken q r =
        ((runAssign fixed taken q r).filter (fun p => (lookupRow taken p.1).isSome),
         (runAssign fixed taken q r).filter (fun p => !(lookupRow taken p.1).isSome)) := by
  intro q r
  induction q, r using runAssign.induct fixed taken with
  | case1 r => simp [moverLoop_nil, runAssign_nil]
  | case2 t q r ticketOld h ih =>
    rw [moverLoop_cons_some h, runAssign_cons_some h, ih]
    simp [h]
  | case3 t q r h ih =>
    rw [moverLoop_cons_none h, runAssign_cons_none h, ih]
    simp [h]

/-- Every slot the walk assigns lies at or below the cursor and is never a
fixed row. -/
theorem runAssign_mem_props (fixed : List Int) (taken : List (Int × Nat)) :
    ∀ (q : List Nat) (r : Int), ∀ p ∈ runAssign fixed taken q r,
      r ≤ p.1 ∧ p.1 ∉ fixed := by
  intro q r
  induction q, r using runAssign.induct fixed taken with
  | case1 r => simp [runAssign_nil]
  | case2 t q r ticketOld h ih =>
    rw [runAssign_cons_some h]
    intro p hp
    rcases List.mem_cons.mp hp with hp | hp
    · subst hp
      exact ⟨le_nextFreeRow fixed r, nextFreeRow_not_mem fixed r⟩
    · have := ih p hp
      have hge := le_nextFreeRow fixed r
      exact ⟨by omega, this.2⟩
  | case3 t q r h ih =>
    rw [runAssign_cons_none h]
    intro p hp
    rcases List.mem_cons.mp hp with hp | hp
    · subst hp
      exact ⟨le_nextFreeRow fixed r, nextFreeRow_not_mem fixed r⟩
    · have := ih p hp
      have hge := le_nextFreeRow fixed r
      exact ⟨by omega, this.2⟩

/-- The rows assigned by the walk are strictly increasing in iteration
order: a slot handled later is always placed strictly further down.  This is
what preserves the relative vertical order of displaced tickets (the queue
is FIFO, so tickets displaced at smaller rows are re-inserted first, hence
at smaller rows). -/
theorem runAssign_pairwise (fixed : List Int) (taken : List (Int × Nat)) :
    ∀ (q : List Nat) (r : Int),
      (runAssign fixed taken q r).Pairwise (fun p1 p2 => p1.1 < p2.1) := by
  intro q r
  induction q, r using runAssign.induct fixed taken with
  | case1 r => simp [runAssign_nil]
  | case2 t q r ticketOld h ih =>
    rw [runAssign_cons_some h]
    refine List.Pairwise.cons ?_ ih
    intro p hp
    have := (runAssign_mem_props fixed taken _ _ p hp).1
    omega
  | case3 t q r h ih =>
    rw [runAssign_cons_none h]
    refine List.Pairwise.cons ?_ ih
    intro p hp
    have := (runAssign_mem_props fixed taken _ _ p hp).1
    omega

/-- The first `L` non-fixed rows at or below `r`, in increasing order: the
rows that the moving ticket itself receives. -/
def firstFreeRows (fixed : List Int) : Int → Nat → List Int
  | _, 0 => []
  | r, L + 1 => nextFreeRow fixed r :: firstFreeRows fixed (nextFreeRow fixed r + 1) L

/-- A contiguous integer range `[s, s + 1, ..., s + n - 1]`. -/
def intRange (s : Int) : Nat → List Int
  | 0 => []
  | n + 1 => s :: intRange (s + 1) n

theorem length_firstFreeRows (fixed : List Int) :
    ∀ (r : Int) (L : Nat), (firstFreeRows fixed r L).length = L := by
  intro r L
  induction L generalizing r with
  | zero => rfl
  | succ L ih => simp [firstFreeRows, ih]

theorem firstFreeRows_mem_props (fixed : List Int) :
    ∀ (L : Nat) (r : Int), ∀ a ∈ firstFreeRows fixed r L, r ≤ a ∧ a ∉ fixed := by
  intro L
  induction L with
  | zero => simp [firstFreeRows]
  | succ L ih =>
    intro r a ha
    rcases List.mem_cons.mp ha with ha | ha
    · subst ha
      exact ⟨le_nextFreeRow fixed r, nextFreeRow_not_mem fixed r⟩
    · have := ih _ a ha
      have hge := le_nextFreeRow fixed r
      exact ⟨by omega, this.2⟩

theorem firstFreeRows_pairwise (fixed : List Int) :
    ∀ (L : Nat) (r : Int), (firstFreeRows fixed r L).Pairwise (· < ·) := by
  intro L
  induction L with
  | zero => simp [firstFreeRows]
  | succ L ih =>
    intro r
    refine List.Pairwise.cons ?_ (ih _)
    intro a ha
    have := (firstFreeRows_mem_props fixed L _ a ha).1
    omega

/-- When no fixed row interferes inside the placement window, the placed
rows are exactly the contiguous range starting at the resolved first row. -/
theorem firstFreeRows_eq_intRange (fixed : List Int) :
    ∀ (L : Nat) (r : Int),
      (∀ k : Nat, k < L → nextFreeRow fixed r + (k : Int) ∉ fixed) →
      firstFreeRows fixed r L = intRange (nextFreeRow fixed r) L := by
  intro L
  induction L with
  | zero => intro r _; rfl
  | succ L ih =>
    intro r h
    have hnext : L = 0 ∨ nextFreeRow fixed (nextFreeRow fixed r + 1) = nextFreeRow fixed r + 1 := by
      rcases Nat.eq_zero_or_pos L with hL | hL
      · exact Or.inl hL
      · refine Or.inr (nextFreeRow_eq_of_not_mem ?_)
        have := h 1 (by omega)
        simpa using this
    rcases hnext with hL | hnext
    · subst hL
      simp [firstFreeRows, intRange]
    · have ihh := ih (nextFreeRow fixed r + 1) (by
        intro k hk
        rw [hnext]
        have := h (k + 1) (by omega)
        have harith : nextFreeRow fixed r + ((k : Int) + 1) = nextFreeRow fixed r + 1 + (k : Int) := by ring
        rw [← harith]
        simpa using this)
      simp only [firstFreeRows, intRange]
      rw [ihh, hnext]

end TicketMover

namespace TicketMover

/-- The termination measure of the placement walk: pending slots plus
occupied rows not yet passed by the cursor. -/
def loopMeasure (taken : List (Int × Nat)) (q : List Nat) (r : Int) : Nat :=
  q.length + (taken.filter (fun p => decide (r ≤ p.1))).length

theorem loopMeasure_decr_some (fixed : List Int) (taken : List (Int × Nat))
    (t ticketOld : Nat) (q : List Nat) (r : Int)
    (h : lookupRow taken (nextFreeRow fixed r) = some ticketOld) :
    loopMeasure taken (q ++ [ticketOld]) (nextFreeRow fixed r + 1) <
      loopMeasure taken (t :: q) r := by
  have hmem := lookupRow_mem h
  have hge := le_nextFreeRow fixed r
  have hlt : (taken.filter (fun y => decide (nextFreeRow fixed r + 1 ≤ y.1))).length <
      (taken.filter (fun y => decide (r ≤ y.1))).length :=
    length_filter_key_lt Prod.fst hmem hge
  simp only [loopMeasure, List.length_append, List.length_cons, List.length_nil]
  omega

theorem loopMeasure_decr_none (fixed : List Int) (taken : List (Int × Nat))
    (t : Nat) (q : List Nat) (r : Int) :
    loopMeasure taken q (nextFreeRow fixed r + 1) < loopMeasure taken (t :: q) r := by
  have hge := le_nextFreeRow fixed r
  have := length_filter_le_mono taken
    (fun p => decide (nextFreeRow fixed r + 1 ≤ p.1)) (fun p => decide (r ≤ p.1))
    (by intro y hy; simp at hy ⊢; omega)
  simp only [loopMeasure, List.length_cons]
  omega

/-- If neither the queue nor the occupied rows mention a ticket id, the walk
never assigns a slot to it. -/
theorem runAssign_filter_not_mem (fixed : List Int) (taken : List (Int × Nat))
    (tid : Nat) (htaken : ∀ p ∈ taken, p.2 ≠ tid) :
    ∀ (n : Nat) (q : List Nat) (r : Int), loopMeasure taken q r ≤ n →
      (∀ x ∈ q, x ≠ tid) →
      (runAssign fixed taken q r).filter (fun p => p.2 == tid) = [] := by
  intro n
  induction n with
  | zero =>
    intro q r hle hq
    match q with
    | [] => simp [runAssign_nil]
    | t :: q' => simp [loopMeasure] at hle
  | succ n ih =>
    intro q r hle hq
    match q with
    | [] => simp [runAssign_nil]
    | t :: q' =>
      have ht : (t == tid) = false := by
        simpa using hq t (List.mem_cons_self _ _)
      cases hl : lookupRow taken (nextFreeRow fixed r) with
      | some ticketOld =>
        rw [runAssign_cons_some hl]
        simp only [List.filter_cons, ht, Bool.false_eq_true, if_false]
        refine ih (q' ++ [ticketOld]) (nextFreeRow fixed r + 1) ?_ ?_
        · have := loopMeasure_decr_some fixed taken t ticketOld q' r hl
          omega
        · intro x hx
          rcases List.mem_append.mp hx with hx | hx
          · exact hq x (List.mem_cons_of_mem _ hx)
          · simp at hx
            subst hx
            exact htaken _ (lookupRow_mem hl)
      | none =>
        rw [runAssign_cons_none hl]
        simp only [List.filter_cons, ht, Bool.false_eq_true, if_false]
        refine ih q' (nextFreeRow fixed r + 1) ?_ ?_
        · have := loopMeasure_decr_none fixed taken t q' r
          omega
        · intro x hx
          exact hq x (List.mem_cons_of_mem _ hx)

/-- The moving ticket occupies exactly the first `L` non-fixed rows at or
below the target row: the queue starts with `L` copies of its id, the walk
serves the queue FIFO, and displaced tickets (which are never the moving
ticket, since its cells were erased beforehand) only enter the queue behind
them. -/
theorem runAssign_filter_replicate (fixed : List Int) (taken : List (Int × Nat))
    (tid : Nat) (htaken : ∀ p ∈ taken, p.2 ≠ tid) :
    ∀ (L : Nat) (q2 : List Nat) (r : Int), (∀ x ∈ q2, x ≠ tid) →
      (runAssign fixed taken (List.replicate L tid ++ q2) r).filter
          (fun p => p.2 == tid) =
        (firstFreeRows fixed r L).map (fun a => (a, tid)) := by
  intro L
  induction L with
  | zero =>
    intro q2 r hq2
    simp only [List.replicate, List.nil_append, firstFreeRows, List.map_nil]
    exact runAssign_filter_not_mem fixed taken tid htaken
      (loopMeasure taken q2 r) q2 r le_rfl hq2
  | succ L ih =>
    intro q2 r hq2
    rw [List.replicate_succ, List.cons_append]
    cases hl : lookupRow taken (nextFreeRow fixed r) with
    | some ticketOld =>
      rw [runAssign_cons_some hl]
      have hq2' : ∀ x ∈ q2 ++ [ticketOld], x ≠ tid := by
        intro x hx
        rcases List.mem_append.mp hx with hx | hx
        · exact hq2 x hx
        · simp at hx
          subst hx
          exact htaken _ (lookupRow_mem hl)
      have := ih (q2 ++ [ticketOld]) (nextFreeRow fixed r + 1) hq2'
      rw [← List.append_assoc] at this
      simp only [List.filter_cons, beq_self_eq_true, if_true, this,
        firstFreeRows, List.map_cons]
    | none =>
      rw [runAssign_cons_none hl]
      have := ih q2 (nextFreeRow fixed r + 1) hq2
      simp only [List.filter_cons, beq_self_eq_true, if_true, this,
        firstFreeRows, List.map_cons]

/-- Embeds the cell updates performed by `TicketMover._insert_ticket_cell`
on already-occupied rows: `CellModel.get(row=current_row, column=column)`
followed by `cell_to_update.ticket = ticket_id; cell_to_update.save()`. -/
def applyUpdates (updates : List (Int × Nat)) (column : Int) (c : CellModel) :
    CellModel :=
  if c.column = column then
    match lookupRow updates c.row with
    | some t => { c with ticket := t }
    | none => c
  else c

/-- Embeds `TicketMover.move_to` (after `Ticket._erase` has removed the
moving ticket's previous cells): run the walk with `length` copies of the
ticket id, apply the resulting updates to the existing cells and bulk-insert
the new ones (`TicketMover._create_new_cells`). -/
def moveTo (isFixed : Nat → Bool) (cells : List CellModel) (tid L : Nat)
    (row column : Int) (forceMove : Bool) : List CellModel :=
  let res := moverLoop (rowsFixed isFixed cells column row forceMove)
      (rowsTaken cells column row) (List.replicate L tid) row
  cells.map (applyUpdates res.1 column) ++
    res.2.map (fun p => ⟨p.1, column, p.2⟩)

theorem applyUpdates_row (updates : List (Int × Nat)) (column : Int)
    (c : CellModel) : (applyUpdates updates column c).row = c.row := by
  unfold applyUpdates
  by_cases hc : c.column = column
  · rw [if_pos hc]
    cases lookupRow updates c.row <;> rfl
  · rw [if_neg hc]

theorem applyUpdates_column (updates : List (Int × Nat)) (column : Int)
    (c : CellModel) : (applyUpdates updates column c).column = c.column := by
  unfold applyUpdates
  by_cases hc : c.column = column
  · rw [if_pos hc]
    cases lookupRow updates c.row <;> rfl
  · rw [if_neg hc]

end TicketMover

namespace TicketMover

theorem rowsTaken_mem_cells {cells : List CellModel} {column row : Int}
    {p : Int × Nat} (hp : p ∈ rowsTaken cells column row) :
    ∃ cl ∈ cells, cl.column = column ∧ row ≤ cl.row ∧ cl.row = p.1 ∧
      cl.ticket = p.2 := by
  obtain ⟨cl, hcl, hcleq⟩ := List.mem_map.mp hp
  obtain ⟨hclcells, hclcond⟩ := List.mem_filter.mp hcl
  simp only [Bool.and_eq_true, beq_iff_eq, decide_eq_true_eq] at hclcond
  refine ⟨cl, hclcells, hclcond.1, hclcond.2, ?_, ?_⟩
  · rw [← hcleq]
  · rw [← hcleq]

theorem nodup_fst_filter_of_pairwise {A : List (Int × Nat)}
    (h : A.Pairwise (fun a b => a.1 < b.1)) (P : Int × Nat → Bool) :
    ((A.filter P).map Prod.fst).Nodup := by
  have h2 : (A.filter P).Pairwise (fun a b => a.1 < b.1) := List.Pairwise.filter P h
  have h3 : ((A.filter P).map Prod.fst).Pairwise (· < ·) :=
    (List.pairwise_map).mpr h2
  exact List.Pairwise.imp (fun hlt => ne_of_lt hlt) h3

/-- Rewriting the ticket-filtered updated cells as a filter on the original
cells: a cell ends up carrying the moving ticket id exactly when it sits in
the destination column and the update list assigns it that id (given that no
pre-existing cell carried the id). -/
theorem filter_applyUpdates_eq (u : List (Int × Nat)) (column : Int) (tid : Nat) :
    ∀ (cells : List CellModel), (∀ cl ∈ cells, cl.ticket ≠ tid) →
      ((cells.map (applyUpdates u column)).filter
          (fun cl => cl.ticket == tid)).map CellModel.row
        = (cells.filter (fun cl => cl.column == column &&
            lookupRow u cl.row == some tid)).map CellModel.row := by
  intro cells
  induction cells with
  | nil => intro _; rfl
  | cons a l ih =>
    intro h1
    have ha : a.ticket ≠ tid := h1 a (List.mem_cons_self _ _)
    have hl := ih fun cl hcl => h1 cl (List.mem_cons_of_mem _ hcl)
    simp only [List.map_cons, List.filter_cons]
    by_cases hc : a.column = column
    · cases hlk : lookupRow u a.row with
      | some t' =>
        have happ : applyUpdates u column a = { a with ticket := t' } := by
          unfold applyUpdates
          rw [if_pos hc, hlk]
        rw [happ]
        by_cases ht : t' = tid
        · subst ht
          simp [hc, hl]
        · simp [hc, ht, hl]
      | none =>
        have happ : applyUpdates u column a = a := by
          unfold applyUpdates
          rw [if_pos hc, hlk]
        rw [happ]
        simp [ha, hl]
    · have happ : applyUpdates u column a = a := by
        unfold applyUpdates
        rw [if_neg hc]
      rw [happ]
      simp [hc, ha, hl]

/-- The rows of the updated cells carrying the moving ticket are a
permutation of the update entries assigning it. -/
theorem updated_rows_perm (cells : List CellModel) (column : Int)
    (u : List (Int × Nat)) (tid : Nat)
    (h1 : ∀ cl ∈ cells, cl.ticket ≠ tid)
    (h2 : ((cells.filter (fun cl => cl.column == column)).map CellModel.row).Nodup)
    (hund : (u.map Prod.fst).Nodup)
    (hukeys : ∀ p ∈ u, ∃ cl ∈ cells, cl.column = column ∧ cl.row = p.1) :
    List.Perm
      (((cells.map (applyUpdates u column)).filter
          (fun cl => cl.ticket == tid)).map CellModel.row)
      ((u.filter (fun p => p.2 == tid)).map Prod.fst) := by
  rw [filter_applyUpdates_eq u column tid cells h1]
  have hnd1 : ((cells.filter (fun cl => cl.column == column &&
      lookupRow u cl.row == some tid)).map CellModel.row).Nodup := by
    have hsub : List.Sublist
        (cells.filter (fun cl => cl.column == column &&
          lookupRow u cl.row == some tid))
        (cells.filter (fun cl => cl.column == column)) := by
      apply List.monotone_filter_right
      intro cl hcl
      simp only [Bool.and_eq_true] at hcl
      exact hcl.1
    exact h2.sublist (hsub.map CellModel.row)
  have hnd2 : ((u.filter (fun p => p.2 == tid)).map Prod.fst).Nodup := by
    have hsub : List.Sublist ((u.filter (fun p => p.2 == tid)).map Prod.fst)
        (u.map Prod.fst) :=
      (List.filter_sublist u).map Prod.fst
    exact hund.sublist hsub
  rw [List.perm_ext_iff_of_nodup hnd1 hnd2]
  intro a
  constructor
  · intro hmem
    obtain ⟨cl, hcl, hclrow⟩ := List.mem_map.mp hmem
    obtain ⟨hclcells, hclcond⟩ := List.mem_filter.mp hcl
    simp only [Bool.and_eq_true, beq_iff_eq] at hclcond
    have hlk : lookupRow u a = some tid := by
      rw [← hclrow]
      exact hclcond.2
    have hmemu : (a, tid) ∈ u := lookupRow_mem hlk
    exact List.mem_map.mpr ⟨(a, tid), List.mem_filter.mpr ⟨hmemu, by simp⟩, rfl⟩
  · intro hmem
    obtain ⟨p, hp, hpfst⟩ := List.mem_map.mp hmem
    obtain ⟨hpu, hptid⟩ := List.mem_filter.mp hp
    simp only [beq_iff_eq] at hptid
    have hpa : p = (a, tid) := by
      obtain ⟨p1, p2⟩ := p
      simp only at hpfst hptid
      rw [hpfst, hptid]
    subst hpa
    have hlk : lookupRow u a = some tid := lookupRow_eq_some_of_mem_nodup hund hpu
    obtain ⟨cl, hclcells, hclcol, hclrow⟩ := hukeys (a, tid) hpu
    refine List.mem_map.mpr ⟨cl, List.mem_filter.mpr ⟨hclcells, ?_⟩, hclrow⟩
    simp only [Bool.and_eq_true, beq_iff_eq]
    exact ⟨hclcol, by rw [hclrow]; exact hlk⟩

/-- The rows of the newly created cells carrying the moving ticket are
exactly the creation entries assigning it. -/
theorem creates_rows (column : Int) (tid : Nat) :
    ∀ (c : List (Int × Nat)),
      (((c.map (fun p => (⟨p.1, column, p.2⟩ : CellModel))).filter
          (fun cl => cl.ticket == tid)).map CellModel.row)
        = (c.filter (fun p => p.2 == tid)).map Prod.fst := by
  intro c
  induction c with
  | nil => rfl
  | cons p c ih =>
    simp only [List.map_cons, List.filter_cons]
    by_cases hp : p.2 = tid
    · simp [hp, ih]
    · simp [hp, ih]

end TicketMover

namespace TicketMover

theorem moveTo_def (isFixed : Nat → Bool) (cells : List CellModel) (tid L : Nat)
    (row column : Int) (forceMove : Bool) :
    moveTo isFixed cells tid L row column forceMove =
      cells.map (applyUpdates (moverLoop (rowsFixed isFixed cells column row forceMove)
          (rowsTaken cells column row) (List.replicate L tid) row).1 column) ++
        ((moverLoop (rowsFixed isFixed cells column row forceMove)
          (rowsTaken cells column row) (List.replicate L tid) row).2).map
          (fun p => ⟨p.1, column, p.2⟩) := rfl

theorem halves_map_fst_perm (A : List (Int × Nat)) (P : Int × Nat → Bool)
    (tid : Nat) :
    List.Perm
      ((((A.filter P).filter (fun p => p.2 == tid)).map Prod.fst) ++
        (((A.filter (fun p => !(P p))).filter (fun p => p.2 == tid)).map Prod.fst))
      ((A.filter (fun p => p.2 == tid)).map Prod.fst) := by
  rw [List.filter_comm (fun p => p.2 == tid) P A,
    List.filter_comm (fun p => p.2 == tid) (fun p => !(P p)) A]
  rw [← List.map_append]
  exact (List.filter_append_perm P (A.filter (fun p => p.2 == tid))).map Prod.fst

/-- Main characterization of a placement: the rows that end up carrying the
moving ticket are exactly the first `length` non-fixed rows at or below the
target row (as a permutation: updates to existing cells and bulk-inserted
cells are stored in different orders). -/
theorem moveTo_rows_perm (isFixed : Nat → Bool) (cells : List CellModel)
    (tid L : Nat) (row column : Int) (forceMove : Bool)
    (h1 : ∀ cl ∈ cells, cl.ticket ≠ tid)
    (h2 : ((cells.filter (fun cl => cl.column == column)).map CellModel.row).Nodup) :
    List.Perm
      (((moveTo isFixed cells tid L row column forceMove).filter
          (fun cl => cl.ticket == tid)).map CellModel.row)
      (firstFreeRows (rowsFixed isFixed cells column row forceMove) row L) := by
  rw [moveTo_def]
  set fixed := rowsFixed isFixed cells column row forceMove with hfx
  set taken := rowsTaken cells column row with htk
  set A := runAssign fixed taken (List.replicate L tid) row with hA
  have htakenv : ∀ p ∈ taken, p.2 ≠ tid := by
    intro p hp
    obtain ⟨cl, hcl, _, _, _, hticket⟩ := rowsTaken_mem_cells hp
    rw [← hticket]
    exact h1 cl hcl
  have hu1 : (moverLoop fixed taken (List.replicate L tid) row).1
      = A.filter (fun p => (lookupRow taken p.1).isSome) := by
    rw [moverLoop_eq_filter_runAssign]
  have hu2 : (moverLoop fixed taken (List.replicate L tid) row).2
      = A.filter (fun p => !(lookupRow taken p.1).isSome) := by
    rw [moverLoop_eq_filter_runAssign]
  rw [hu1, hu2, List.filter_append, List.map_append]
  have hfilter : A.filter (fun p => p.2 == tid) =
      (firstFreeRows fixed row L).map (fun a => (a, tid)) := by
    have := runAssign_filter_replicate fixed taken tid htakenv L [] row
      (by intro x hx; cases hx)
    simpa using this
  have hpair := runAssign_pairwise fixed taken (List.replicate L tid) row
  have hund : ((A.filter (fun p => (lookupRow taken p.1).isSome)).map
      Prod.fst).Nodup :=
    nodup_fst_filter_of_pairwise hpair _
  have hukeys : ∀ p ∈ A.filter (fun p => (lookupRow taken p.1).isSome),
      ∃ cl ∈ cells, cl.column = column ∧ cl.row = p.1 := by
    intro p hp
    obtain ⟨hpA, hpS⟩ := List.mem_filter.mp hp
    obtain ⟨b, hb⟩ := Option.isSome_iff_exists.mp hpS
    obtain ⟨cl, hcl, hclcol, _, hclrow, _⟩ := rowsTaken_mem_cells (lookupRow_mem hb)
    exact ⟨cl, hcl, hclcol, hclrow⟩
  have hupd := updated_rows_perm cells column
    (A.filter (fun p => (lookupRow taken p.1).isSome)) tid h1 h2 hund hukeys
  have hcr := creates_rows column tid
    (A.filter (fun p => !(lookupRow taken p.1).isSome))
  refine List.Perm.trans (List.Perm.append hupd (List.Perm.of_eq hcr)) ?_
  refine List.Perm.trans
    (halves_map_fst_perm A (fun p => (lookupRow taken p.1).isSome) tid) ?_
  rw [hfilter, List.map_map]
  have hid : (Prod.fst ∘ fun a => ((a : Int), tid)) = id := rfl
  rw [hid, List.map_id]

end TicketMover

namespace TicketMover

/-- With `force_move = false` every occupied row below the target is
classified fixed, whatever its ticket's `is_fixed` flag. -/
theorem rowsFixed_false_eq (isFixed : Nat → Bool) (cells : List CellModel)
    (column row : Int) :
    rowsFixed isFixed cells column row false =
      (rowsTaken cells column row).map Prod.fst := by
  unfold rowsFixed rowsTaken
  rw [List.map_map]
  congr 1
  rw [List.filter_eq_self.mpr]
  intro c _
  simp

/-- When every taken row is fixed, the walk never displaces: it simply pours
the queue into the successive non-fixed rows. -/
theorem runAssign_zip_of_keys_sub_fixed (fixed : List Int)
    (taken : List (Int × Nat))
    (hsub : ∀ a ∈ taken.map Prod.fst, a ∈ fixed) :
    ∀ (q : List Nat) (r : Int),
      runAssign fixed taken q r = (firstFreeRows fixed r q.length).zip q := by
  intro q
  induction q with
  | nil => intro r; rw [runAssign_nil]; rfl
  | cons t q ih =>
    intro r
    have hl : lookupRow taken (nextFreeRow fixed r) = none := by
      apply lookupRow_none_of_not_mem_keys
      intro hmem
      exact nextFreeRow_not_mem fixed r (hsub _ hmem)
    rw [runAssign_cons_none hl, ih]
    simp [firstFreeRows, List.zip]

theorem moverLoop_of_keys_sub_fixed (fixed : List Int) (taken : List (Int × Nat))
    (hsub : ∀ a ∈ taken.map Prod.fst, a ∈ fixed) (q : List Nat) (r : Int) :
    moverLoop fixed taken q r = ([], (firstFreeRows fixed r q.length).zip q) := by
  rw [moverLoop_eq_filter_runAssign]
  have hnone : ∀ p ∈ runAssign fixed taken q r, lookupRow taken p.1 = none := by
    intro p hp
    apply lookupRow_none_of_not_mem_keys
    intro hmem
    exact (runAssign_mem_props fixed taken q r p hp).2 (hsub _ hmem)
  have h1 : (runAssign fixed taken q r).filter
      (fun p => (lookupRow taken p.1).isSome) = [] := by
    rw [List.filter_eq_nil_iff]
    intro p hp
    simp [hnone p hp]
  have h2 : (runAssign fixed taken q r).filter
      (fun p => !(lookupRow taken p.1).isSome) = runAssign fixed taken q r := by
    rw [List.filter_eq_self.mpr]
    intro p hp
    simp [hnone p hp]
  rw [h1, h2, runAssign_zip_of_keys_sub_fixed fixed taken hsub q r]

/-- `applyUpdates` with an empty update list is the identity. -/
theorem applyUpdates_nil (column : Int) (c : CellModel) :
    applyUpdates [] column c = c := by
  unfold applyUpdates
  by_cases hc : c.column = column
  · rw [if_pos hc]
    rfl
  · rw [if_neg hc]

end TicketMover

namespace TicketMover

/-- A cell whose ticket is fixed is never touched by a placement: its row is
classified fixed, the walk skips it, and the cell survives the move
unchanged. -/
theorem fixed_cell_preserved (isFixed : Nat → Bool) (cells : List CellModel)
    (tid L : Nat) (row column : Int) (forceMove : Bool) (cl : CellModel)
    (hcl : cl ∈ cells) (hfix : isFixed cl.ticket = true) :
    cl ∈ moveTo isFixed cells tid L row column forceMove := by
  rw [moveTo_def]
  apply List.mem_append_left
  refine List.mem_map.mpr ⟨cl, hcl, ?_⟩
  by_cases hc : cl.column = column
  · have hnone : lookupRow (moverLoop (rowsFixed isFixed cells column row forceMove)
        (rowsTaken cells column row) (List.replicate L tid) row).1 cl.row = none := by
      rw [moverLoop_eq_filter_runAssign]
      apply lookupRow_none_of_not_mem_keys
      intro hmem
      obtain ⟨p, hp, hpfst⟩ := List.mem_map.mp hmem
      have hpA := (List.mem_filter.mp hp).1
      have hprops := runAssign_mem_props _ _ _ _ p hpA
      by_cases hrow : row ≤ cl.row
      · apply hprops.2
        rw [hpfst]
        unfold rowsFixed
        refine List.mem_map.mpr ⟨cl, ?_, rfl⟩
        refine List.mem_filter.mpr ⟨?_, by simp [hfix]⟩
        unfold cellsBelow
        exact List.mem_filter.mpr ⟨hcl, by simp [hc, hrow]⟩
      · have := hprops.1
        omega
    unfold applyUpdates
    rw [if_pos hc, hnone]
  · unfold applyUpdates
    rw [if_neg hc]

/-- Fuel-indexed version of the inner skip loop
(`while current_row in self._rows_fixed`). -/
def nextFreeRowFuel (fixed : List Int) : Nat → Int → Option Int
  | 0, r => if r ∈ fixed then none else some r
  | n + 1, r => if r ∈ fixed then nextFreeRowFuel fixed n (r + 1) else some r

theorem nextFreeRowFuel_complete (fixed : List Int) :
    ∀ (n : Nat) (r : Int), (fixed.filter (fun x => decide (r ≤ x))).length ≤ n →
      nextFreeRowFuel fixed n r = some (nextFreeRow fixed r) := by
  intro n
  induction n with
  | zero =>
    intro r hle
    by_cases h : r ∈ fixed
    · exfalso
      have hmem : r ∈ fixed.filter (fun x => decide (r ≤ x)) :=
        List.mem_filter.mpr ⟨h, by simp⟩
      have := List.length_pos.mpr (List.ne_nil_of_mem hmem)
      omega
    · simp [nextFreeRowFuel, h, nextFreeRow_eq_of_not_mem h]
  | succ n ih =>
    intro r hle
    by_cases h : r ∈ fixed
    · have hstep : nextFreeRowFuel fixed (n + 1) r = nextFreeRowFuel fixed n (r + 1) := by
        simp [nextFreeRowFuel, h]
      have hlt : (fixed.filter (fun y => decide (r + 1 ≤ y))).length <
          (fixed.filter (fun y => decide (r ≤ y))).length :=
        length_filter_key_lt id h (le_refl r)
      rw [hstep, ih (r + 1) (by omega), nextFreeRow_step h]
    · simp [nextFreeRowFuel, h, nextFreeRow_eq_of_not_mem h]

/-- Fuel-indexed version of the outer displacement loop
(`while self._ticket_cells_to_insert`): `none` means the fuel ran out before
the queue drained. -/
def moverLoopFuel (fixed : List Int) (taken : List (Int × Nat)) :
    Nat → List Nat → Int → Option (List (Int × Nat) × List (Int × Nat))
  | _, [], _ => some ([], [])
  | 0, _ :: _, _ => none
  | n + 1, t :: q, r =>
    match lookupRow taken (nextFreeRow fixed r) with
    | some ticketOld =>
      (moverLoopFuel fixed taken n (q ++ [ticketOld]) (nextFreeRow fixed r + 1)).map
        (fun res => ((nextFreeRow fixed r, t) :: res.1, res.2))
    | none =>
      (moverLoopFuel fixed taken n q (nextFreeRow fixed r + 1)).map
        (fun res => (res.1, (nextFreeRow fixed r, t) :: res.2))

/-- With fuel at least the termination measure, the fuel-indexed loop
completes and computes exactly the unbounded loop's result: the displacement
walk always terminates, without any bound on row numbers. -/
theorem moverLoopFuel_complete (fixed : List Int) (taken : List (Int × Nat)) :
    ∀ (n : Nat) (q : List Nat) (r : Int), loopMeasure taken q r ≤ n →
      moverLoopFuel fixed taken n q r = some (moverLoop fixed taken q r) := by
  intro n
  induction n with
  | zero =>
    intro q r hle
    match q with
    | [] => rw [moverLoop_nil]; rfl
    | t :: q' => simp [loopMeasure] at hle
  | succ n ih =>
    intro q r hle
    match q with
    | [] => rw [moverLoop_nil]; rfl
    | t :: q' =>
      cases hl : lookupRow taken (nextFreeRow fixed r) with
      | some ticketOld =>
        rw [moverLoop_cons_some hl]
        have hdec := loopMeasure_decr_some fixed taken t ticketOld q' r hl
        have hrec := ih (q' ++ [ticketOld]) (nextFreeRow fixed r + 1) (by omega)
        show (match lookupRow taken (nextFreeRow fixed r) with
          | some ticketOld =>
            (moverLoopFuel fixed taken n (q' ++ [ticketOld])
              (nextFreeRow fixed r + 1)).map
              (fun res : List (Int × Nat) × List (Int × Nat) =>
                ((nextFreeRow fixed r, t) :: res.1, res.2))
          | none =>
            (moverLoopFuel fixed taken n q' (nextFreeRow fixed r + 1)).map
              (fun res : List (Int × Nat) × List (Int × Nat) =>
                (res.1, (nextFreeRow fixed r, t) :: res.2))) = _
        rw [hl]
        dsimp only
        rw [hrec]
        rfl
      | none =>
        rw [moverLoop_cons_none hl]
        have hdec := loopMeasure_decr_none fixed taken t q' r
        have hrec := ih q' (nextFreeRow fixed r + 1) (by omega)
        show (match lookupRow taken (nextFreeRow fixed r) with
          | some ticketOld =>
            (moverLoopFuel fixed taken n (q' ++ [ticketOld])
              (nextFreeRow fixed r + 1)).map
              (fun res : List (Int × Nat) × List (Int × Nat) =>
                ((nextFreeRow fixed r, t) :: res.1, res.2))
          | none =>
            (moverLoopFuel fixed taken n q' (nextFreeRow fixed r + 1)).map
              (fun res : List (Int × Nat) × List (Int × Nat) =>
                (res.1, (nextFreeRow fixed r, t) :: res.2))) = _
        rw [hl]
        dsimp only
        rw [hrec]
        rfl

end TicketMover

/- ===================== persistent entities ===================== -/

/-- Embeds `Status` of `planning/models.py`. -/
structure Status where
  name : String
  position : Int
  is_drawn : Bool
deriving DecidableEq, Repr

/-- Embeds `Member` of `planning/models.py`. -/
structure Member where
  name : String
  free_time_percentage : Int
deriving DecidableEq, Repr

/-- Embeds `ProjectModel` of `planning/models.py` (free-text fields and the
derived `start_date` / `end_date` columns are omitted; `status` and `owner`
are foreign keys referencing the primary keys of `Status` and `Member`). -/
structure ProjectModel where
  id : String
  name : String
  status : String
  charge : ℚ
  owner : String
deriving DecidableEq, Repr

/-- Embeds `TicketModel` of `planning/models.py`.  `project = none` models a
ticket whose project foreign key does not resolve, the situation
`project_or_none` reports as `None`. -/
structure TicketModel where
  id : Nat
  owner : String
  description : String
  is_scheduled : Bool
  project : Option String
  is_fixed : Bool
  duration : Int
  advancement : Int
deriving DecidableEq, Repr

/-- The relational store backing the peewee models. -/
structure DB where
  statuses : List Status
  members : List Member
  projects : List ProjectModel
  tickets : List TicketModel
deriving Repr

def findStatus (db : DB) (name : String) : Option Status :=
  db.statuses.find? (fun s => s.name == name)

def findProject (db : DB) (pid : String) : Option ProjectModel :=
  db.projects.find? (fun p => p.id == pid)

def findMember (db : DB) (name : String) : Option Member :=
  db.members.find? (fun m => m.name == name)

/-- Embeds `TicketModel.project_or_none`: resolve the project foreign key,
`none` when it raises `DoesNotExist`. -/
def TicketModel.project_or_none (db : DB) (t : TicketModel) : Option ProjectModel :=
  t.project.bind (findProject db)

/-- Embeds `TicketModel.needs_being_erased`: `False` when there is no
project, otherwise the negation of the project's status `is_drawn` flag
(`none` models the status foreign key failing to resolve). -/
def TicketModel.needs_being_erased (db : DB) (t : TicketModel) : Option Bool :=
  match t.project_or_none db with
  | none => some false
  | some p => (findStatus db p.status).map (fun s => !s.is_drawn)

/-- Embeds the `ProjectModel.duration` property:
`math.ceil(charge / owner.free_time_percentage * 100)`. -/
def ProjectModel.duration (db : DB) (p : ProjectModel) : Option Int :=
  (findMember db p.owner).map
    (fun m => Int.ceil (p.charge / (m.free_time_percentage : ℚ) * 100))

/-- Embeds `ProjectModel.get_tickets_duration`: the summed `duration` of
every ticket joined to this project (including the ticket asking, when it
belongs to the project). -/
def ProjectModel.get_tickets_duration (db : DB) (p : ProjectModel) : Int :=
  ((db.tickets.filter (fun t => t.project == some p.id)).map
    TicketModel.duration).sum

/-- Embeds `TicketModel._get_length_from_model`; `none` models the
unguarded `self.project` access raising when `duration == 0` and the
project does not resolve. -/
def TicketModel.get_length_from_model (db : DB) (t : TicketModel) : Option Int :=
  if t.duration ≠ 0 then
    some (max (t.duration - t.advancement) 0)
  else
    match t.project_or_none db with
    | none => none
    | some p =>
      (p.duration db).map
        (fun d => max (d - p.get_tickets_duration db - t.advancement) 0)

/-- Embeds the `TicketModel.length` property. -/
def TicketModel.length (db : DB) (t : TicketModel) : Option Int :=
  match t.needs_being_erased db with
  | none => none
  | some true => some 0
  | some false => t.get_length_from_model db

/-- The spec-side notion "sum of the durations of the project's *other*
tickets": every ticket of the project except the one asking. -/
def otherTicketsDuration (db : DB) (p : ProjectModel) (t : TicketModel) : Int :=
  ((db.tickets.filter (fun t2 => t2.project == some p.id && t2.id != t.id)).map
    TicketModel.duration).sum

theorem sum_filter_erase_self (t : TicketModel) (P : TicketModel → Bool) :
    ∀ l : List TicketModel, (∀ x ∈ l, x.id = t.id → x.duration = 0) →
      ((l.filter P).map TicketModel.duration).sum
        = ((l.filter (fun x => P x && x.id != t.id)).map
            TicketModel.duration).sum := by
  intro l
  induction l with
  | nil => intro _; rfl
  | cons a l ih =>
    intro h
    have hl := ih fun x hx => h x (List.mem_cons_of_mem _ hx)
    simp only [List.filter_cons]
    by_cases hP : P a = true
    · by_cases hid : a.id = t.id
      · have hdur : a.duration = 0 := h a (List.mem_cons_self _ _) hid
        simp [hP, hid, hdur, hl]
      · simp [hP, hid, hl]
    · rw [Bool.not_eq_true] at hP
      simp [hP, hl]

/- ===================== project key generation ===================== -/

/-- Splitting a character list on single spaces; embeds Python's
`str.split(" ")` (consecutive separators yield empty parts). -/
def splitOnSpace : List Char → List (List Char)
  | [] => [[]]
  | c :: cs =>
    if c = ' ' then [] :: splitOnSpace cs
    else
      match splitOnSpace cs with
      | [] => [[c]]
      | w :: ws => (c :: w) :: ws

/-- Embeds the `Member.initials` property: the first character of each
space-separated part of the name; `none` models the `name_part[0]`
IndexError on an empty part. -/
def Member.initials (m : Member) : Option (List Char) :=
  (splitOnSpace m.name.data).mapM List.head?

/-- Strict lexicographic comparison by code point; embeds the ordering the
store uses for `order_by(ProjectModel.id.desc())` (SQLite BINARY collation,
which agrees with code-point order on ASCII keys). -/
def strLt : List Char → List Char → Bool
  | [], [] => false
  | [], _ :: _ => true
  | _ :: _, [] => false
  | a :: as, b :: bs =>
    if a.toNat < b.toNat then true
    else if a.toNat = b.toNat then strLt as bs
    else false

/-- The greatest key of a list under `strLt`; embeds
`select ... order_by(id.desc()).get()` (`none` models `DoesNotExist`). -/
def maxKey : List (List Char) → Option (List Char)
  | [] => none
  | k :: ks =>
    match maxKey ks with
    | none => some k
    | some m => if strLt m k then some k else some m

/-- `startsWithChars s pre` embeds `s.startswith(pre)` /
`ProjectModel.id.startswith(...)`. -/
def startsWithChars : List Char → List Char → Bool
  | _, [] => true
  | [], _ :: _ => false
  | a :: as, b :: bs => a == b && startsWithChars as bs

/-- Embeds Python `int(...)` restricted to the non-negative decimal forms
project-key suffixes can take: all-digit, non-empty strings; `none` models
`ValueError`. -/
def parseDigits (cs : List Char) : Option Nat :=
  if cs ≠ [] ∧ cs.all Char.isDigit then
    some (cs.foldl (fun n c => 10 * n + (c.toNat - 48)) 0)
  else none

/-- Decimal digits of a natural number. -/
def natToChars (n : Nat) : List Char :=
  Nat.toDigits 10 n

/-- Embeds the Python format `f"{key_number:05d}"`. -/
def pad5 (n : Nat) : List Char :=
  List.replicate (5 - (natToChars n).length) '0' ++ natToChars n

/-- Embeds `Member._get_last_project_key`: the greatest existing project id
starting with the member's initials, or initials + "00000" when none
exists. -/
def Member.get_last_project_key (db : DB) (m : Member) : Option (List Char) :=
  m.initials.map (fun ini =>
    match maxKey ((db.projects.map (fun p => p.id.data)).filter
        (fun k => startsWithChars k ini)) with
    | some k => k
    | none => ini ++ ('0' :: '0' :: '0' :: '0' :: '0' :: []))

/-- Embeds `Member.get_next_available_key`: strip the initials from the last
key, parse the decimal suffix, increment, zero-pad to five digits.  `none`
models the `assert` failing or `int(...)` raising `ValueError`. -/
def Member.get_next_available_key (db : DB) (m : Member) : Option (List Char) :=
  match m.get_last_project_key db with
  | none => none
  | some last =>
    match m.initials with
    | none => none
    | some ini =>
      if startsWithChars last ini then
        (parseDigits (last.drop ini.length)).map (fun n => ini ++ pad5 (n + 1))
      else none

theorem maxKey_mem : ∀ {l : List (List Char)} {k : List Char},
    maxKey l = some k → k ∈ l := by
  intro l
  induction l with
  | nil => intro k h; cases h
  | cons a l ih =>
    intro k h
    unfold maxKey at h
    cases hm : maxKey l with
    | none =>
      rw [hm] at h
      injection h with h
      subst h
      exact List.mem_cons_self _ _
    | some m =>
      rw [hm] at h
      dsimp only at h
      by_cases hlt : strLt m a = true
      · rw [if_pos hlt] at h
        injection h with h
        subst h
        exact List.mem_cons_self _ _
      · rw [if_neg hlt] at h
        injection h with h
        subst h
        exact List.mem_cons_of_mem _ (ih hm)

theorem startsWithChars_append (pre l : List Char) :
    startsWithChars (pre ++ l) pre = true := by
  induction pre with
  | nil => cases l <;> rfl
  | cons a pre ih => simp [startsWithChars, ih]

theorem parseDigits_isSome {cs : List Char} (hne : cs ≠ [])
    (hdig : cs.all Char.isDigit = true) : (parseDigits cs).isSome := by
  simp [parseDigits, hne, hdig]

/- ===================== calendar utilities ===================== -/

/-
Dates are embedded as integers counting days from a Monday epoch, so
`weekday d = d % 7` matches Python's `date.weekday()` (Monday = 0,
Sunday = 6) and `d + 1` is the next calendar day.
-/

/-- Python `date.weekday()`. -/
def weekday (d : Int) : Int :=
  d % 7

/-- A working day: Monday to Friday (`weekday <= 4`). -/
def isWeekday (d : Int) : Bool :=
  decide (weekday d ≤ 4)

/-- The `while my_date.weekday() >= 5: my_date += 1` loops of
`add_workdays` and `PlanningGrid._get_row_from_date`: skip to the next
non-weekend day. -/
def skipWeekend (d : Int) : Int :=
  if h : weekday d ≥ 5 then skipWeekend (d + 1) else d
termination_by (if weekday d ≥ 5 then 7 - weekday d else 0).toNat
decreasing_by
  simp only [weekday] at h ⊢
  omega

theorem skipWeekend_eq_of_weekday {d : Int} (h : weekday d ≤ 4) :
    skipWeekend d = d := by
  rw [skipWeekend]
  have hno : ¬ weekday d ≥ 5 := by
    simp only [weekday] at h ⊢
    omega
  rw [dif_neg hno]

theorem skipWeekend_step {d : Int} (h : weekday d ≥ 5) :
    skipWeekend d = skipWeekend (d + 1) := by
  rw [skipWeekend]
  rw [dif_pos h]

/-- Embeds `add_workdays` of `planning/my_functions.py`: advance one
calendar day then skip the weekend, `n` times (non-positive `n` is a
no-op, matching `range(n)`). -/
def addWorkdaysAux : Nat → Int → Int
  | 0, d => d
  | n + 1, d => addWorkdaysAux n (skipWeekend (d + 1))

def add_workdays (d : Int) (workdays : Int) : Int :=
  addWorkdaysAux workdays.toNat d

/- ===================== the grid widget (row lookup) ===================== -/

/-- Python exception kinds relevant to the grid widget. -/
inductive PyError where
  | valueError
  | indexError
  | assertionError
deriving DecidableEq, Repr

/-- Embeds Python `list.index`: the index of the first occurrence, raising
`ValueError` when the element is missing. -/
def listIndex : List Int → Int → Except PyError Nat
  | [], _ => .error .valueError
  | a :: l, x => if a = x then .ok 0 else (listIndex l x).map (· + 1)

/-- Embeds `PlanningGrid._get_row_from_date`: skip the weekend, then
`days_displayed.index(date)` inside `try ... except IndexError`.  Since
`list.index` raises `ValueError`, only `IndexError` is mapped to the
`None` result. -/
def PlanningGrid.get_row_from_date (days : List Int) (d : Int) :
    Except PyError (Option Nat) :=
  match listIndex days (skipWeekend d) with
  | .ok r => .ok (some r)
  | .error .indexError => .ok none
  | .error e => .error e

/-- Embeds `PlanningGrid.get_today_row`: the row of today's date, with the
`assert today_row is not None` modelled as `assertionError`. -/
def PlanningGrid.get_today_row (days : List Int) (today : Int) :
    Except PyError Nat :=
  match PlanningGrid.get_row_from_date days today with
  | .ok (some r) => .ok r
  | .ok none => .error .assertionError
  | .error e => .error e

theorem listIndex_error_of_not_mem {l : List Int} {x : Int} (h : x ∉ l) :
    listIndex l x = .error .valueError := by
  induction l with
  | nil => rfl
  | cons a l ih =>
    simp only [List.mem_cons] at h
    push_neg at h
    have hne : ¬ a = x := fun hh => h.1 hh.symm
    simp only [listIndex, if_neg hne, ih h.2]
    rfl

theorem listIndex_ne_indexError (l : List Int) (x : Int) :
    listIndex l x ≠ .error .indexError := by
  induction l with
  | nil => simp [listIndex]
  | cons a l ih =>
    by_cases ha : a = x
    · simp [listIndex, ha]
    · simp only [listIndex, if_neg ha]
      cases hl : listIndex l x with
      | ok r => simp [Except.map]
      | error e =>
        rw [hl] at ih
        simp only [Except.map]
        intro hcontra
        injection hcontra with hcontra
        apply ih
        rw [hcontra]

/- ===================== the grid rebase engine ===================== -/

namespace GridInit

/-- Embeds `GridInitializer._get_delta_cells`: walk day by day from the old
first-row date towards the new one, counting weekdays with the sign of the
direction.  The walk runs exactly `|new - old|` iterations. -/
def getDeltaCellsGo : Nat → Int → Int → Int → Int
  | 0, _, _, delta => delta
  | n + 1, cur, step, delta =>
    getDeltaCellsGo n (cur + step) step
      (if weekday cur ≤ 4 then delta + step else delta)

def getDeltaCells (firstDateOld firstDateNew : Int) : Int :=
  getDeltaCellsGo (firstDateNew - firstDateOld).natAbs firstDateOld
    (if firstDateOld < firstDateNew then 1 else -1) 0

/-- The number of weekdays among the `n` consecutive days starting at
`base` (the spec-side counting function). -/
def weekdayCount (base : Int) : Nat → Int
  | 0 => 0
  | n + 1 => (if weekday base ≤ 4 then 1 else 0) + weekdayCount (base + 1) n

theorem weekdayCount_succ_top (base : Int) :
    ∀ n : Nat, weekdayCount base (n + 1) =
      weekdayCount base n + (if weekday (base + n) ≤ 4 then 1 else 0) := by
  intro n
  induction n generalizing base with
  | zero => simp [weekdayCount]
  | succ n ih =>
    have := ih (base + 1)
    simp only [weekdayCount] at this ⊢
    rw [this]
    have harith : base + 1 + (n : Int) = base + ((n : Int) + 1) := by ring
    rw [harith]
    push_cast
    ring

theorem getDeltaCellsGo_pos :
    ∀ (n : Nat) (cur delta : Int),
      getDeltaCellsGo n cur 1 delta = delta + weekdayCount cur n := by
  intro n
  induction n with
  | zero => intro cur delta; simp [getDeltaCellsGo, weekdayCount]
  | succ n ih =>
    intro cur delta
    simp only [getDeltaCellsGo, weekdayCount, ih]
    by_cases h : weekday cur ≤ 4
    · rw [if_pos h, if_pos h]
      ring
    · rw [if_neg h, if_neg h]
      ring

theorem getDeltaCellsGo_neg :
    ∀ (n : Nat) (cur delta : Int),
      getDeltaCellsGo n cur (-1) delta =
        delta - weekdayCount (cur - n + 1) n := by
  intro n
  induction n with
  | zero => intro cur delta; simp [getDeltaCellsGo, weekdayCount]
  | succ n ih =>
    intro cur delta
    simp only [getDeltaCellsGo]
    rw [ih]
    have hcount := weekdayCount_succ_top (cur - (n + 1 : Nat) + 1) n
    have harith1 : cur + -1 - (n : Int) + 1 = cur - ((n : Nat) + 1 : Nat) + 1 := by
      push_cast
      ring
    have harith2 : cur - ((n + 1 : Nat) : Int) + 1 + (n : Int) = cur := by
      push_cast
      ring
    rw [harith1]
    rw [show ((n + 1 : Nat) : Int) = ((n : Int) + 1) from by push_cast; ring] at hcount
    rw [show (cur - (((n : Nat) + 1 : Nat) : Int) + 1) = (cur - ((n : Int) + 1) + 1) from by push_cast; ring]
    rw [hcount]
    rw [show (cur - ((n : Int) + 1) + 1 + (n : Int)) = cur from by ring]
    by_cases h : weekday cur ≤ 4
    · rw [if_pos h, if_pos h]
      ring
    · rw [if_neg h, if_neg h]
      ring

/-- `getDeltaCells` counts, with sign, the weekdays walked day by day
between the two dates. -/
theorem getDeltaCells_spec (dOld dNew : Int) :
    (dOld ≤ dNew → getDeltaCells dOld dNew = weekdayCount dOld (dNew - dOld).natAbs)
    ∧ (dNew < dOld → getDeltaCells dOld dNew
        = -(weekdayCount (dNew + 1) (dOld - dNew).natAbs)) := by
  constructor
  · intro hle
    unfold getDeltaCells
    by_cases heq : dOld = dNew
    · subst heq
      rw [sub_self]
      simp [getDeltaCellsGo, weekdayCount]
    · have hlt : dOld < dNew := by omega
      rw [if_pos hlt, getDeltaCellsGo_pos]
      ring
  · intro hlt
    unfold getDeltaCells
    rw [if_neg (by omega), getDeltaCellsGo_neg]
    have hn : (((dNew - dOld).natAbs : Nat) : Int) = dOld - dNew := by omega
    have hn2 : (((dOld - dNew).natAbs : Nat) : Int) = dOld - dNew := by omega
    have : dOld - ((dNew - dOld).natAbs : Int) + 1 = dNew + 1 := by omega
    rw [this]
    have : (dNew - dOld).natAbs = (dOld - dNew).natAbs := by omega
    rw [this]
    ring

end GridInit

namespace GridInit

/-- Two cells share their composite primary key `(row, column)`. -/
def sameKey (a b : CellModel) : Bool :=
  decide (a.row = b.row ∧ a.column = b.column)

/-- The new coordinates of a cell after the rebase shift:
`cell.row = cell.row - delta`. -/
def shiftCell (delta : Int) (c : CellModel) : CellModel :=
  { c with row := c.row - delta }

/-- One iteration of the `for cell in cells_ordered` loop of
`GridInitializer._move_all_cells_up`: `cell.delete_instance()` (delete by
primary key), then `cell.save(force_insert=True)` at `row - delta`, which
fails (`none`) if the new primary key is already present. -/
def shiftStep (delta : Int) (st : Option (List CellModel)) (c : CellModel) :
    Option (List CellModel) :=
  match st with
  | none => none
  | some s =>
    let s2 := s.filter (fun c2 => !sameKey c2 c)
    let c2 := shiftCell delta c
    if s2.any (fun c3 => sameKey c3 c2) then none
    else some (s2 ++ [c2])

/-- Embeds `GridInitializer._get_cells_ordered`: ascending row order when
`delta > 0`, descending when `delta < 0`, nothing when `delta = 0`. -/
def getCellsOrdered (cells : List CellModel) (delta : Int) : List CellModel :=
  if delta > 0 then cells.mergeSort (fun a b => decide (a.row ≤ b.row))
  else if delta < 0 then cells.mergeSort (fun a b => decide (b.row ≤ a.row))
  else []

/-- Embeds `GridInitializer._move_all_cells_up` restricted to the cell
table: delete and re-insert every cell at `row - delta`, in the order given
by `_get_cells_ordered`; `none` models a primary-key collision aborting the
pass. -/
def moveAllCellsUp (cells : List CellModel) (delta : Int) :
    Option (List CellModel) :=
  (getCellsOrdered cells delta).foldl (shiftStep delta) (some cells)

theorem sameKey_symm_false {a b : CellModel} (h : sameKey a b = false) :
    sameKey b a = false := by
  simp only [sameKey, decide_eq_false_iff_not] at h ⊢
  intro hcon
  exact h ⟨hcon.1.symm, hcon.2.symm⟩

theorem sameKey_shift_iff (delta : Int) (a b : CellModel) :
    sameKey (shiftCell delta a) (shiftCell delta b) = sameKey a b := by
  simp only [sameKey, shiftCell]
  by_cases h : a.row = b.row ∧ a.column = b.column
  · rw [decide_eq_true (by constructor; omega; exact h.2), decide_eq_true h]
  · rw [decide_eq_false, decide_eq_false h]
    intro hcon
    exact h ⟨by omega, hcon.2⟩

/-- Core invariant argument for the rebase pass.  `sdone` holds the cells
already re-inserted (at their new keys), `rem` the cells still to process
(at their old keys).  Processing order guarantees that a freshly shifted
cell never collides with a cell processed later (`hpair`), and `hfresh`
guarantees it never collides with one processed earlier. -/
theorem shiftFold_spec (delta : Int) :
    ∀ (rem sdone s : List CellModel),
      rem.Pairwise (fun a b => b.row ≠ a.row - delta) →
      (sdone ++ rem).Pairwise (fun a b => sameKey a b = false) →
      (∀ d ∈ sdone, ∀ c ∈ rem, sameKey d (shiftCell delta c) = false) →
      List.Perm s (sdone ++ rem) →
      ∃ s', rem.foldl (shiftStep delta) (some s) = some s' ∧
        List.Perm s' (sdone ++ rem.map (shiftCell delta)) := by
  intro rem
  induction rem with
  | nil =>
    intro sdone s _ _ _ hperm
    exact ⟨s, rfl, by simpa using hperm⟩
  | cons c rem ih =>
    intro sdone s hpair hkeys hfresh hperm
    -- the state after deleting c
    have hkeys_c : ∀ x ∈ sdone ++ rem, sameKey x c = false := by
      intro x hx
      rcases List.mem_append.mp hx with hx | hx
      · exact (List.pairwise_append.mp hkeys).2.2 x hx c (List.mem_cons_self _ _)
      · have h2 := (List.pairwise_append.mp hkeys).2.1
        exact sameKey_symm_false (List.rel_of_pairwise_cons h2 hx)
    have hfilter : (sdone ++ c :: rem).filter (fun c2 => !sameKey c2 c)
        = sdone ++ rem := by
      rw [List.filter_append]
      have h1 : sdone.filter (fun c2 => !sameKey c2 c) = sdone := by
        rw [List.filter_eq_self]
        intro x hx
        simp [hkeys_c x (List.mem_append_left _ hx)]
      have h2 : (c :: rem).filter (fun c2 => !sameKey c2 c) = rem := by
        simp only [List.filter_cons]
        have hcc : sameKey c c = true := by simp [sameKey]
        rw [hcc]
        simp only [Bool.not_true, Bool.false_eq_true, if_false]
        rw [List.filter_eq_self]
        intro x hx
        simp [hkeys_c x (List.mem_append_right _ hx)]
      rw [h1, h2]
    have hpermfilter : List.Perm (s.filter (fun c2 => !sameKey c2 c))
        (sdone ++ rem) := by
      have := hperm.filter (fun c2 => !sameKey c2 c)
      rwa [hfilter] at this
    -- the insertion does not collide
    have hnocoll : (s.filter (fun c2 => !sameKey c2 c)).any
        (fun c3 => sameKey c3 (shiftCell delta c)) = false := by
      rw [List.any_eq_false]
      intro x hx
      have hxmem := hpermfilter.mem_iff.mp hx
      rcases List.mem_append.mp hxmem with hxm | hxm
      · rw [hfresh x hxm c (List.mem_cons_self _ _)]
        simp
      · have hrow : x.row ≠ c.row - delta :=
          List.rel_of_pairwise_cons hpair hxm
        simp only [sameKey, shiftCell, decide_eq_true_eq]
        intro hcon
        exact hrow hcon.1
    -- one step of the fold
    have hstep : shiftStep delta (some s) c
        = some (s.filter (fun c2 => !sameKey c2 c) ++ [shiftCell delta c]) := by
      unfold shiftStep
      dsimp only
      rw [hnocoll]
      rfl
    simp only [List.foldl_cons, hstep]
    -- set up the induction hypothesis
    have hpair' : rem.Pairwise (fun a b => b.row ≠ a.row - delta) :=
      (List.pairwise_cons.mp hpair).2
    have hkeys' : ((sdone ++ [shiftCell delta c]) ++ rem).Pairwise
        (fun a b => sameKey a b = false) := by
      have hparts := List.pairwise_append.mp hkeys
      have hsd := hparts.1
      have hcrem := hparts.2.1
      have hcross := hparts.2.2
      rw [List.pairwise_append]
      refine ⟨?_, (List.pairwise_cons.mp hcrem).2, ?_⟩
      · rw [List.pairwise_append]
        refine ⟨hsd, List.pairwise_singleton _ _, ?_⟩
        intro d hd x hx
        simp only [List.mem_singleton] at hx
        subst hx
        exact hfresh d hd c (List.mem_cons_self _ _)
      · intro x hx y hy
        rcases List.mem_append.mp hx with hxm | hxm
        · exact hcross x hxm y (List.mem_cons_of_mem _ hy)
        · simp only [List.mem_singleton] at hxm
          subst hxm
          -- shifted c against a later cell y : rows differ
          have hrow : y.row ≠ c.row - delta :=
            List.rel_of_pairwise_cons hpair hy
          simp only [sameKey, shiftCell, decide_eq_false_iff_not]
          intro hcon
          exact hrow hcon.1.symm
    have hfresh' : ∀ d ∈ sdone ++ [shiftCell delta c], ∀ x ∈ rem,
        sameKey d (shiftCell delta x) = false := by
      intro d hd x hx
      rcases List.mem_append.mp hd with hdm | hdm
      · exact hfresh d hdm x (List.mem_cons_of_mem _ hx)
      · simp only [List.mem_singleton] at hdm
        subst hdm
        rw [sameKey_shift_iff]
        exact List.rel_of_pairwise_cons (List.pairwise_append.mp hkeys).2.1 hx
    have hperm' : List.Perm (s.filter (fun c2 => !sameKey c2 c) ++ [shiftCell delta c])
        ((sdone ++ [shiftCell delta c]) ++ rem) := by
      refine List.Perm.trans (hpermfilter.append_right [shiftCell delta c]) ?_
      -- (sdone ++ rem) ++ [x] ~ (sdone ++ [x]) ++ rem
      rw [List.append_assoc, List.append_assoc]
      exact List.Perm.append_left sdone
        (@List.perm_append_comm CellModel rem [shiftCell delta c])
    obtain ⟨s', hfold, hpermfinal⟩ := ih (sdone ++ [shiftCell delta c]) _
      hpair' hkeys' hfresh' hperm'
    refine ⟨s', hfold, ?_⟩
    refine hpermfinal.trans ?_
    rw [List.map_cons, List.append_assoc]
    exact List.Perm.refl _

/-- The rebase pass succeeds (no primary-key collision at any intermediate
step) and shifts every cell's row by exactly `-delta`, for any initial cell
table with distinct `(row, column)` keys. -/
theorem moveAllCellsUp_spec (cells : List CellModel) (delta : Int)
    (hkeys : cells.Pairwise (fun a b => sameKey a b = false)) :
    ∃ s', moveAllCellsUp cells delta = some s' ∧
      List.Perm s' (cells.map (shiftCell delta)) := by
  have hsymm : ∀ {x y : CellModel}, sameKey x y = false → sameKey y x = false :=
    fun h => sameKey_symm_false h
  rcases lt_trichotomy delta 0 with hneg | hzero | hpos
  · unfold moveAllCellsUp getCellsOrdered
    rw [if_neg (by omega), if_pos hneg]
    set rem := cells.mergeSort (fun a b => decide (b.row ≤ a.row)) with hrem
    have hperm0 : List.Perm rem cells := List.mergeSort_perm cells _
    have hsorted := @List.sorted_mergeSort CellModel
      (fun a b : CellModel => decide (b.row ≤ a.row))
      (by intro a b c h1 h2; simp at h1 h2 ⊢; omega)
      (by intro a b; simp; omega) cells
    rw [← hrem] at hsorted
    have hpair : rem.Pairwise (fun a b => b.row ≠ a.row - delta) := by
      refine hsorted.imp ?_
      intro a b h
      simp at h
      omega
    have hkeys' : rem.Pairwise (fun a b => sameKey a b = false) :=
      (List.Perm.pairwise_iff hsymm hperm0).mpr hkeys
    obtain ⟨s', hfold, hp⟩ := shiftFold_spec delta rem [] cells hpair
      (by simpa using hkeys') (by intro d hd; cases hd)
      (by simpa using hperm0.symm)
    refine ⟨s', hfold, ?_⟩
    refine hp.trans ?_
    simpa using hperm0.map (shiftCell delta)
  · subst hzero
    unfold moveAllCellsUp getCellsOrdered
    rw [if_neg (by omega), if_neg (by omega)]
    refine ⟨cells, rfl, ?_⟩
    have hshift : shiftCell 0 = id := by
      funext c
      cases c
      simp [shiftCell]
    rw [hshift, List.map_id]
  · unfold moveAllCellsUp getCellsOrdered
    rw [if_pos hpos]
    set rem := cells.mergeSort (fun a b => decide (a.row ≤ b.row)) with hrem
    have hperm0 : List.Perm rem cells := List.mergeSort_perm cells _
    have hsorted := @List.sorted_mergeSort CellModel
      (fun a b : CellModel => decide (a.row ≤ b.row))
      (by intro a b c h1 h2; simp at h1 h2 ⊢; omega)
      (by intro a b; simp; omega) cells
    rw [← hrem] at hsorted
    have hpair : rem.Pairwise (fun a b => b.row ≠ a.row - delta) := by
      refine hsorted.imp ?_
      intro a b h
      simp at h
      omega
    have hkeys' : rem.Pairwise (fun a b => sameKey a b = false) :=
      (List.Perm.pairwise_iff hsymm hperm0).mpr hkeys
    obtain ⟨s', hfold, hp⟩ := shiftFold_spec delta rem [] cells hpair
      (by simpa using hkeys') (by intro d hd; cases hd)
      (by simpa using hperm0.symm)
    refine ⟨s', hfold, ?_⟩
    refine hp.trans ?_
    simpa using hperm0.map (shiftCell delta)

end GridInit

namespace GridInit

/-- Embeds `GridInitializer._compute_first_day`: the lowest existing cell
row (`.get()` on an empty cell table raises `DoesNotExist`, modelled by
`none`), the date that row used to display, and the widened first day. -/
def computeFirstDay (cells : List CellModel) (dateFirstRowOld today : Int)
    (daysInPast : Nat) : Option Int :=
  match (cells.map CellModel.row).min? with
  | none => none
  | some emptyRowsQuantity =>
    let dateFirstCellOld := add_workdays dateFirstRowOld emptyRowsQuantity
    let dateFirstRowFromParameters := today - daysInPast
    some (if dateFirstCellOld < dateFirstRowFromParameters then dateFirstCellOld
      else dateFirstRowFromParameters)

/-- Embeds `GridInitializer._compute_days_displayed`: all weekdays from the
first day up to `today + days_in_the_future` calendar days. -/
def computeDaysDisplayed (firstDay today : Int) (daysInFuture : Nat) :
    List Int :=
  (TicketMover.intRange firstDay (today - firstDay + daysInFuture).toNat).filter
    isWeekday

/-- Embeds `GridInitializer.initialize_grid` restricted to the persistent
state: compute the first day, build the displayed days, compute the delta
against the stored first-row date and shift every cell.  Any uncaught
exception along the way is `none`. -/
def initGrid (cells : List CellModel) (dateFirstRowOld today : Int)
    (daysInPast daysInFuture : Nat) : Option (List Int × List CellModel) := do
  let firstDay ← computeFirstDay cells dateFirstRowOld today daysInPast
  let days := computeDaysDisplayed firstDay today daysInFuture
  let firstDateNew ← days.head?
  let delta := getDeltaCells dateFirstRowOld firstDateNew
  let cells2 ← moveAllCellsUp cells delta
  return (days, cells2)

end GridInit

/- ===================== claims ===================== -/

theorem map_eq_self_of_eq {α : Type} (f : α → α) :
    ∀ l : List α, (∀ a ∈ l, f a = a) → l.map f = l := by
  intro l
  induction l with
  | nil => intro _; rfl
  | cons a l ih =>
    intro h
    simp only [List.map_cons, h a (List.mem_cons_self _ _),
      ih fun x hx => h x (List.mem_cons_of_mem _ hx)]

open TicketMover GridInit

/-- C7: for every finite initial set of cells in the destination column and
every finite queue of pending slots, the displacement walk of
`TicketMover.move_to` terminates: some finite fuel makes the fuel-indexed
loop complete with exactly the unbounded loop's result, and likewise for the
inner fixed-row skip loop — no upper bound on row numbers is needed. -/
theorem spec_mover_terminates :
    (∀ (fixed : List Int) (taken : List (Int × Nat)) (q : List Nat) (r : Int),
      ∃ n, moverLoopFuel fixed taken n q r = some (moverLoop fixed taken q r))
    ∧ (∀ (fixed : List Int) (r : Int),
      ∃ n, nextFreeRowFuel fixed n r = some (nextFreeRow fixed r)) := by
  constructor
  · intro fixed taken q r
    exact ⟨loopMeasure taken q r, moverLoopFuel_complete fixed taken _ q r le_rfl⟩
  · intro fixed r
    exact ⟨(fixed.filter (fun x => decide (r ≤ x))).length,
      nextFreeRowFuel_complete fixed _ r le_rfl⟩

/-- C8: with an empty cell table, `GridInitializer._compute_first_day`'s
`.get()` on the row-ordered cell query raises `DoesNotExist` (modelled by
`none`), and since no caller catches it, grid startup (`initialize_grid`)
fails: the rebase engine cannot run on an empty board. -/
theorem spec_empty_board_init_fails (dateFirstRowOld today : Int)
    (daysInPast daysInFuture : Nat) :
    computeFirstDay [] dateFirstRowOld today daysInPast = none
    ∧ initGrid [] dateFirstRowOld today daysInPast daysInFuture = none :=
  ⟨rfl, rfl⟩

/-- C9: for a date whose (weekend-skipped) value is not among the displayed
days, `PlanningGrid._get_row_from_date` raises an uncaught `ValueError`
instead of returning `None`: `list.index` signals a missing element with
`ValueError`, the `except IndexError` branch never fires (the `None` result
is unreachable), and `get_today_row` propagates the error. -/
theorem spec_missing_date_raises (days : List Int) (d : Int)
    (h : skipWeekend d ∉ days) :
    PlanningGrid.get_row_from_date days d = .error .valueError
    ∧ (∀ (days2 : List Int) (d2 : Int),
        PlanningGrid.get_row_from_date days2 d2 ≠ .ok none)
    ∧ PlanningGrid.get_today_row days d = .error .valueError := by
  have hmain : PlanningGrid.get_row_from_date days d = .error .valueError := by
    unfold PlanningGrid.get_row_from_date
    rw [listIndex_error_of_not_mem h]
  refine ⟨hmain, ?_, ?_⟩
  · intro days2 d2
    unfold PlanningGrid.get_row_from_date
    cases hl : listIndex days2 (skipWeekend d2) with
    | ok r => simp
    | error e =>
      cases e with
      | indexError => exact absurd hl (listIndex_ne_indexError _ _)
      | valueError => simp
      | assertionError => simp
  · unfold PlanningGrid.get_today_row
    rw [hmain]

theorem spec_missing_date_raises_witness :
    PlanningGrid.get_row_from_date [0] 1 = .error .valueError
    ∧ (∀ (days2 : List Int) (d2 : Int),
        PlanningGrid.get_row_from_date days2 d2 ≠ .ok none)
    ∧ PlanningGrid.get_today_row [0] 1 = .error .valueError :=
  spec_missing_date_raises [0] 1
    (by rw [skipWeekend_eq_of_weekday (by decide)]; decide)

/-- C3: during a forced placement, a displaceable occupied row is
overwritten with the moving ticket's id and the displaced id is pushed onto
the back of the FIFO queue (first conjunct, the loop's step equation); every
re-insertion of the continuation happens strictly below the displacement row
(second conjunct); assignment rows are strictly increasing in iteration
order, so FIFO processing preserves the relative vertical order of stacked
displaced tickets (third conjunct); and cells of fixed tickets are skipped
and survive any placement unchanged (fourth conjunct). -/
theorem spec_displacement_cascade (fixed : List Int) (taken : List (Int × Nat))
    (t ticketOld : Nat) (q : List Nat) (r : Int)
    (h : lookupRow taken (nextFreeRow fixed r) = some ticketOld) :
    (moverLoop fixed taken (t :: q) r =
      ((nextFreeRow fixed r, t) ::
         (moverLoop fixed taken (q ++ [ticketOld]) (nextFreeRow fixed r + 1)).1,
       (moverLoop fixed taken (q ++ [ticketOld]) (nextFreeRow fixed r + 1)).2))
    ∧ (∀ p ∈ runAssign fixed taken (q ++ [ticketOld]) (nextFreeRow fixed r + 1),
        nextFreeRow fixed r < p.1)
    ∧ (runAssign fixed taken (t :: q) r).Pairwise (fun p1 p2 => p1.1 < p2.1)
    ∧ (∀ (isFixed : Nat → Bool) (cells : List CellModel) (tid L : Nat)
        (row column : Int) (forceMove : Bool) (cl : CellModel), cl ∈ cells →
        isFixed cl.ticket = true →
        cl ∈ moveTo isFixed cells tid L row column forceMove) := by
  refine ⟨moverLoop_cons_some h, ?_, runAssign_pairwise fixed taken (t :: q) r, ?_⟩
  · intro p hp
    have := (runAssign_mem_props fixed taken _ _ p hp).1
    omega
  · intro isFixed cells tid L row column forceMove cl hcl hfix
    exact fixed_cell_preserved isFixed cells tid L row column forceMove cl hcl hfix

theorem spec_displacement_cascade_witness :
    ((moverLoop [] [(0, 7)] (5 :: []) 0 =
      ((nextFreeRow [] 0, 5) ::
         (moverLoop [] [(0, 7)] ([] ++ [7]) (nextFreeRow [] 0 + 1)).1,
       (moverLoop [] [(0, 7)] ([] ++ [7]) (nextFreeRow [] 0 + 1)).2))
    ∧ (∀ p ∈ runAssign [] [(0, 7)] ([] ++ [7]) (nextFreeRow [] 0 + 1),
        nextFreeRow [] 0 < p.1)
    ∧ (runAssign [] [(0, 7)] (5 :: []) 0).Pairwise (fun p1 p2 => p1.1 < p2.1)
    ∧ (∀ (isFixed : Nat → Bool) (cells : List CellModel) (tid L : Nat)
        (row column : Int) (forceMove : Bool) (cl : CellModel), cl ∈ cells →
        isFixed cl.ticket = true →
        cl ∈ moveTo isFixed cells tid L row column forceMove)) :=
  spec_displacement_cascade [] [(0, 7)] 5 7 [] 0
    (by rw [nextFreeRow_eq_of_not_mem (by decide)]; rfl)

/-- C4: a placement with `force_move = false` leaves every existing cell
(in every column, fixed or not) untouched — the result is exactly the old
cells plus fresh cells for the moving ticket — and each fresh cell carries
the moving ticket, sits at or below the target row in the destination
column, and occupies a row-column position no existing cell occupied. -/
theorem spec_nonforced_frame (isFixed : Nat → Bool) (cells : List CellModel)
    (tid L : Nat) (row column : Int) :
    moveTo isFixed cells tid L row column false =
      cells ++ ((firstFreeRows (rowsFixed isFixed cells column row false) row
          L).zip (List.replicate L tid)).map
          (fun p => (⟨p.1, column, p.2⟩ : CellModel))
    ∧ (∀ cl2 ∈ ((firstFreeRows (rowsFixed isFixed cells column row false) row
          L).zip (List.replicate L tid)).map
          (fun p => (⟨p.1, column, p.2⟩ : CellModel)),
        cl2.ticket = tid ∧ row ≤ cl2.row ∧ cl2.column = column ∧
          ∀ cl ∈ cells, ¬(cl.row = cl2.row ∧ cl.column = cl2.column)) := by
  have hsub : ∀ a ∈ (rowsTaken cells column row).map Prod.fst,
      a ∈ rowsFixed isFixed cells column row false := by
    intro a ha
    rw [rowsFixed_false_eq]
    exact ha
  have hloop := moverLoop_of_keys_sub_fixed
    (rowsFixed isFixed cells column row false) (rowsTaken cells column row)
    hsub (List.replicate L tid) row
  rw [List.length_replicate] at hloop
  constructor
  · rw [moveTo_def, hloop]
    congr 1
    exact map_eq_self_of_eq _ cells fun c _ => applyUpdates_nil column c
  · intro cl2 hcl2
    obtain ⟨p, hp, hpeq⟩ := List.mem_map.mp hcl2
    obtain ⟨p1, p2⟩ := p
    have hmemz := List.of_mem_zip hp
    have hrowmem := hmemz.1
    have htid : p2 = tid := List.eq_of_mem_replicate hmemz.2
    have hprops := firstFreeRows_mem_props
      (rowsFixed isFixed cells column row false) L row p1 hrowmem
    subst hpeq
    refine ⟨htid, hprops.1, rfl, ?_⟩
    intro cl hclcells hcon
    obtain ⟨hconrow, hconcol⟩ := hcon
    apply hprops.2
    rw [rowsFixed_false_eq]
    unfold rowsTaken cellsBelow
    rw [List.map_map]
    refine List.mem_map.mpr ⟨cl, List.mem_filter.mpr ⟨hclcells, ?_⟩, by
      simp only [Function.comp]
      exact hconrow⟩
    have hrle : row ≤ cl.row := by
      rw [hconrow]
      exact hprops.1
    simp [hconcol, hrle]

theorem spec_nonforced_frame_witness :
    (moveTo (fun t => t == 2) [⟨1, 0, 2⟩] 1 2 0 0 false =
      [⟨1, 0, 2⟩] ++ ((firstFreeRows (rowsFixed (fun t => t == 2) [⟨1, 0, 2⟩] 0 0
          false) 0 2).zip (List.replicate 2 1)).map
          (fun p => (⟨p.1, 0, p.2⟩ : CellModel)))
    ∧ (∀ cl2 ∈ ((firstFreeRows (rowsFixed (fun t => t == 2) [⟨1, 0, 2⟩] 0 0
          false) 0 2).zip (List.replicate 2 1)).map
          (fun p => (⟨p.1, 0, p.2⟩ : CellModel)),
        cl2.ticket = 1 ∧ 0 ≤ cl2.row ∧ cl2.column = 0 ∧
          ∀ cl ∈ [(⟨1, 0, 2⟩ : CellModel)], ¬(cl.row = cl2.row ∧ cl.column = cl2.column)) :=
  spec_nonforced_frame (fun t => t == 2) [⟨1, 0, 2⟩] 1 2 0 0

/-- C2: a ticket whose project's status has `is_drawn = false` has length 0;
otherwise (status drawn or no project) the length is
`max(effective_duration - advancement, 0)`, where `effective_duration` is
the ticket's own nonzero `duration`, and otherwise the project's duration
minus the summed durations of the project's *other* tickets (the code sums
over all the project's tickets, but the ticket asking contributes `0` in
that branch, so the two readings agree). -/
theorem spec_length_invariant (db : DB) (t : TicketModel)
    (htmem : t ∈ db.tickets) (hids : (db.tickets.map TicketModel.id).Nodup) :
    (∀ p, t.project_or_none db = some p →
      ∀ s, findStatus db p.status = some s → s.is_drawn = false →
      t.length db = some 0)
    ∧ (t.needs_being_erased db = some false → t.duration ≠ 0 →
      t.length db = some (max (t.duration - t.advancement) 0))
    ∧ (t.needs_being_erased db = some false → t.duration = 0 →
      ∀ p, t.project_or_none db = some p →
      ∀ d, ProjectModel.duration db p = some d →
      t.length db = some (max (d - otherTicketsDuration db p t - t.advancement) 0)) := by
  refine ⟨?_, ?_, ?_⟩
  · intro p hp s hs hdrawn
    simp [TicketModel.length, TicketModel.needs_being_erased, hp, hs, hdrawn]
  · intro hne hdur
    simp [TicketModel.length, hne, TicketModel.get_length_from_model, hdur]
  · intro hne hdur0 p hp d hd
    have hzero : ∀ x ∈ db.tickets, x.id = t.id → x.duration = 0 := by
      intro x hx hxid
      have hxt : x = t := List.inj_on_of_nodup_map hids hx htmem hxid
      rw [hxt, hdur0]
    have key : ProjectModel.get_tickets_duration db p = otherTicketsDuration db p t := by
      unfold ProjectModel.get_tickets_duration otherTicketsDuration
      exact sum_filter_erase_self t _ db.tickets hzero
    simp [TicketModel.length, hne, TicketModel.get_length_from_model, hdur0,
      hp, hd, key]

def ticketC2 : TicketModel :=
  ⟨1, "Ann Lee", "", false, some "AL00001", false, 0, 2⟩

def dbC2 : DB :=
  ⟨[⟨"active", 1, true⟩], [⟨"Ann Lee", 50⟩],
   [⟨"AL00001", "proj", "active", 4, "Ann Lee"⟩],
   [⟨1, "Ann Lee", "", false, some "AL00001", false, 0, 2⟩,
    ⟨2, "Ann Lee", "", false, some "AL00001", false, 3, 0⟩]⟩

theorem spec_length_invariant_witness :
    ((∀ p, TicketModel.project_or_none dbC2 ticketC2 = some p →
      ∀ s, findStatus dbC2 p.status = some s → s.is_drawn = false →
      TicketModel.length dbC2 ticketC2 = some 0)
    ∧ (TicketModel.needs_being_erased dbC2 ticketC2 = some false →
      ticketC2.duration ≠ 0 →
      TicketModel.length dbC2 ticketC2 =
        some (max (ticketC2.duration - ticketC2.advancement) 0))
    ∧ (TicketModel.needs_being_erased dbC2 ticketC2 = some false →
      ticketC2.duration = 0 →
      ∀ p, TicketModel.project_or_none dbC2 ticketC2 = some p →
      ∀ d, ProjectModel.duration dbC2 p = some d →
      TicketModel.length dbC2 ticketC2 =
        some (max (d - otherTicketsDuration dbC2 p ticketC2 -
          ticketC2.advancement) 0))) :=
  spec_length_invariant dbC2 ticketC2 (by decide) (by decide)

def dbC6 : DB :=
  ⟨[], [],
   [⟨"JD00041", "", "", 0, ""⟩, ⟨"JD00012", "", "", 0, ""⟩,
    ⟨"AB00007", "", "", 0, ""⟩], []⟩

/-- C6: for the member "John Doe", `get_next_available_key` returns
"JD00001" on any store with no project id starting with "JD", and "JD00042"
on a store whose greatest "JD"-prefixed id is "JD00041". -/
theorem spec_key_generation :
    (∀ db : DB, (∀ p ∈ db.projects,
        startsWithChars p.id.data ('J' :: 'D' :: []) = false) →
      Member.get_next_available_key db ⟨"John Doe", 100⟩ = some "JD00001".data)
    ∧ Member.get_next_available_key dbC6 ⟨"John Doe", 100⟩ = some "JD00042".data := by
  constructor
  · intro db h
    have hini : (⟨"John Doe", 100⟩ : Member).initials = some ('J' :: 'D' :: []) := by
      decide
    have hfilter : (db.projects.map (fun p => p.id.data)).filter
        (fun k => startsWithChars k ('J' :: 'D' :: [])) = [] := by
      rw [List.filter_eq_nil_iff]
      intro k hk
      obtain ⟨p, hp, hpeq⟩ := List.mem_map.mp hk
      rw [← hpeq]
      simp [h p hp]
    have hlast : Member.get_last_project_key db ⟨"John Doe", 100⟩ =
        some ('J' :: 'D' :: '0' :: '0' :: '0' :: '0' :: '0' :: []) := by
      unfold Member.get_last_project_key
      rw [hini]
      simp [hfilter, maxKey]
    unfold Member.get_next_available_key
    rw [hlast, hini]
    decide
  · decide

theorem spec_key_generation_witness :
    Member.get_next_available_key ⟨[], [], [], []⟩ ⟨"John Doe", 100⟩ =
      some "JD00001".data :=
  spec_key_generation.1 ⟨[], [], [], []⟩ (by intro p hp; cases hp)

def dbC10 : DB :=
  ⟨[], [], [⟨"JDX00001", "", "", 0, ""⟩], []⟩

/-- C10: key generation is only safe when every project id starting with
the member's initials is those initials followed by digits.  First
conjunct: with an id "JDX00001" (another member's initials extending "JD"),
the greatest "JD"-prefixed id is "JDX00001" and `int("X00001")` raises an
uncaught `ValueError` (modelled by `none`).  Second conjunct: under the
digits-only condition the call always succeeds. -/
theorem spec_key_prefix_hazard :
    Member.get_next_available_key dbC10 ⟨"John Doe", 100⟩ = none
    ∧ (∀ db : DB, (∀ p ∈ db.projects,
        startsWithChars p.id.data ('J' :: 'D' :: []) = true →
        p.id.data.drop 2 ≠ [] ∧ (p.id.data.drop 2).all Char.isDigit = true) →
      (Member.get_next_available_key db ⟨"John Doe", 100⟩).isSome) := by
  constructor
  · decide
  · intro db h
    have hini : (⟨"John Doe", 100⟩ : Member).initials = some ('J' :: 'D' :: []) := by
      decide
    unfold Member.get_next_available_key Member.get_last_project_key
    rw [hini]
    simp only [Option.map_some']
    cases hmk : maxKey ((db.projects.map (fun p => p.id.data)).filter
        (fun k => startsWithChars k ('J' :: 'D' :: []))) with
    | none =>
      simp only [startsWithChars_append, if_true]
      decide
    | some k =>
      have hkmem := maxKey_mem hmk
      obtain ⟨hkmap, hkpre⟩ := List.mem_filter.mp hkmem
      obtain ⟨p, hp, hpeq⟩ := List.mem_map.mp hkmap
      have hcond := h p hp (by rw [hpeq]; exact hkpre)
      rw [hpeq] at hcond
      simp only [hkpre, if_true]
      have hparse := parseDigits_isSome hcond.1 hcond.2
      have hlen : ('J' :: 'D' :: []).length = 2 := rfl
      rw [hlen]
      rw [Option.isSome_map']
      exact hparse

/-- C5: delta is the signed day-by-day weekday count between the stored and
the new first-row date, and the delete-then-reinsert pass (ascending row
order for `delta > 0`, descending for `delta < 0`, skipped for
`delta = 0`) completes without any intermediate primary-key collision
(result `some`), shifting every cell's row by exactly `-delta`. -/
theorem spec_rebase_shift (cells : List CellModel) (dOld dNew : Int)
    (hkeys : cells.Pairwise (fun a b => sameKey a b = false)) :
    ((dOld ≤ dNew →
        getDeltaCells dOld dNew = weekdayCount dOld (dNew - dOld).natAbs)
      ∧ (dNew < dOld →
        getDeltaCells dOld dNew = -(weekdayCount (dNew + 1) (dOld - dNew).natAbs)))
    ∧ ∃ s', moveAllCellsUp cells (getDeltaCells dOld dNew) = some s'
        ∧ List.Perm s' (cells.map (shiftCell (getDeltaCells dOld dNew))) :=
  ⟨getDeltaCells_spec dOld dNew, moveAllCellsUp_spec cells _ hkeys⟩

theorem spec_rebase_shift_witness :
    (((0 : Int) ≤ 3 →
        getDeltaCells 0 3 = weekdayCount 0 ((3 : Int) - 0).natAbs)
      ∧ ((3 : Int) < 0 →
        getDeltaCells 0 3 = -(weekdayCount ((3 : Int) + 1) ((0 : Int) - 3).natAbs)))
    ∧ ∃ s', moveAllCellsUp [⟨0, 0, 1⟩, ⟨1, 0, 2⟩, ⟨0, 1, 1⟩]
          (getDeltaCells 0 3) = some s'
        ∧ List.Perm s' ([⟨0, 0, 1⟩, ⟨1, 0, 2⟩, ⟨0, 1, 1⟩].map
            (shiftCell (getDeltaCells 0 3))) :=
  spec_rebase_shift [⟨0, 0, 1⟩, ⟨1, 0, 2⟩, ⟨0, 1, 1⟩] 0 3 (by decide)

/-- C1 (amended): after a successful placement, the cells carrying the
moving ticket in the destination column occupy exactly the first `length`
non-blocked rows at or below the target (blocked = occupied by a fixed
ticket, or occupied at all when `force_move = false`); when no blocked row
lies inside the placement window they form a contiguous run of exactly
`length` rows starting at the resolved first row. -/
theorem spec_contiguity_amended (isFixed : Nat → Bool) (cells : List CellModel)
    (tid L : Nat) (row column : Int) (forceMove : Bool)
    (h1 : ∀ cl ∈ cells, cl.ticket ≠ tid)
    (h2 : ((cells.filter (fun cl => cl.column == column)).map CellModel.row).Nodup) :
    List.Perm
      (((moveTo isFixed cells tid L row column forceMove).filter
          (fun cl => cl.ticket == tid)).map CellModel.row)
      (firstFreeRows (rowsFixed isFixed cells column row forceMove) row L)
    ∧ ((∀ k : Nat, k < L →
        nextFreeRow (rowsFixed isFixed cells column row forceMove) row + (k : Int)
          ∉ rowsFixed isFixed cells column row forceMove) →
      List.Perm
        (((moveTo isFixed cells tid L row column forceMove).filter
            (fun cl => cl.ticket == tid)).map CellModel.row)
        (intRange (nextFreeRow (rowsFixed isFixed cells column row forceMove) row)
          L)) := by
  have hmain := moveTo_rows_perm isFixed cells tid L row column forceMove h1 h2
  refine ⟨hmain, fun hwin => ?_⟩
  rw [← firstFreeRows_eq_intRange _ L row hwin]
  exact hmain

theorem spec_contiguity_amended_witness :
    List.Perm
      (((moveTo (fun _ => false) [] 1 2 0 0 true).filter
          (fun cl => cl.ticket == 1)).map CellModel.row)
      (firstFreeRows (rowsFixed (fun _ => false) [] 0 0 true) 0 2)
    ∧ ((∀ k : Nat, k < 2 →
        nextFreeRow (rowsFixed (fun _ => false) [] 0 0 true) 0 + (k : Int)
          ∉ rowsFixed (fun _ => false) [] 0 0 true) →
      List.Perm
        (((moveTo (fun _ => false) [] 1 2 0 0 true).filter
            (fun cl => cl.ticket == 1)).map CellModel.row)
        (intRange (nextFreeRow (rowsFixed (fun _ => false) [] 0 0 true) 0) 2)) :=
  spec_contiguity_amended (fun _ => false) [] 1 2 0 0 true
    (by intro cl hcl; cases hcl) (by decide)

/-- C1 (counterexample): moving ticket 1 of length 2 to row 0 of column 0
with `force_move = true`, over a single fixed ticket 2 occupying row 1,
places ticket 1 on rows 0 and 2 — not the contiguous run [0, 1] of length 2
starting at the resolved first row 0 that the claim asserts. -/
theorem spec_contiguity_counterexample :
    ((moveTo (fun t => t == 2) [⟨1, 0, 2⟩] 1 2 0 0 true).filter
        (fun cl => cl.ticket == 1)).map CellModel.row = [0, 2]
    ∧ nextFreeRow (rowsFixed (fun t => t == 2) [⟨1, 0, 2⟩] 0 0 true) 0 = 0
    ∧ intRange (0 : Int) 2 = [0, 1]
    ∧ ¬ List.Perm [(0 : Int), 2] [0, 1] := by
  have hfx : rowsFixed (fun t => t == 2) [⟨1, 0, 2⟩] 0 0 true = [1] := by decide
  have hrt : rowsTaken [⟨1, 0, 2⟩] 0 0 = [(1, 2)] := by decide
  have hnf0 : nextFreeRow [1] 0 = 0 := nextFreeRow_eq_of_not_mem (by decide)
  have hnf1 : nextFreeRow [1] (0 + 1) = 2 := by
    rw [nextFreeRow_step (by decide)]
    rw [nextFreeRow_eq_of_not_mem (by decide)]
    norm_num
  have hl0 : lookupRow [(1, 2)] (nextFreeRow [1] 0) = none := by
    rw [hnf0]
    decide
  have hl1 : lookupRow [(1, 2)] (nextFreeRow [1] (0 + 1)) = none := by
    rw [hnf1]
    decide
  have e1 : moverLoop [1] [(1, 2)] [1, 1] 0 = ([], [(0, 1), (2, 1)]) := by
    rw [moverLoop_cons_none hl0, hnf0, moverLoop_cons_none hl1, hnf1,
      moverLoop_nil]
  have hmove : moveTo (fun t => t == 2) [⟨1, 0, 2⟩] 1 2 0 0 true =
      [⟨1, 0, 2⟩, ⟨0, 0, 1⟩, ⟨2, 0, 1⟩] := by
    rw [moveTo_def, hfx, hrt]
    have hrep : (List.replicate 2 1 : List Nat) = [1, 1] := rfl
    rw [hrep, e1]
    decide
  refine ⟨by rw [hmove]; decide, by rw [hfx]; exact hnf0, by decide, ?_⟩
  intro hperm
  have h2mem : (2 : Int) ∈ [(0 : Int), 1] := hperm.mem_iff.mp (by decide)
  simp at h2mem

theorem spec_key_prefix_hazard_witness :
    (Member.get_next_available_key dbC6 ⟨"John Doe", 100⟩).isSome :=
  spec_key_prefix_hazard.2 dbC6 (by decide)
